import Mathlib

/-!
# Verification of the Apriori association-rule miner (`src/apriori.py`)

Shallow embedding of the `Apriori` class and its methods, together with
theorems about the claims of the specification.

Modelling conventions:
* Items are natural numbers (an opaque hashable identifier in the source).
* A Python `frozenset`/`set` of items is a `Finset ℕ`; a Python `set` of
  frozensets is a duplicate-free `List (Finset ℕ)` built with `setInsert`
  (membership test before append), which fixes a concrete iteration order.
* Python `dict`s are modelled as binding histories `List (key × value)`;
  a lookup returns the value of the *last* binding of a key (`pyFind`),
  which coincides with Python dictionary semantics.
* Python numbers are exact rationals `ℚ`.  The two division sites of the
  source (`supp = cnt / self.n_baskets` and
  `conf = self.supp_dict[freq] / self.supp_dict[ante]`) are parametrised
  by a rounding function `rnd : ℚ → ℚ` applied to the exact quotient:
  `id` gives the idealised exact-arithmetic semantics, `roundDouble`
  gives IEEE-754 binary64 (Python `float`) semantics.
* Python exceptions (`KeyError`, `ZeroDivisionError`) are modelled with
  `Except String`; the unbounded `while True` loop of `apriori` is run on
  fuel, and exhausted fuel is modelled by the outer `Option` being `none`
  (proved unreachable).
-/

/-- An itemset: a Python `frozenset` of item identifiers. -/
abbrev Itemset := Finset ℕ

/-- An association rule `(antecedent, consequence, confidence)` as appended
to `self.rule_list`. -/
abbrev Rule := Itemset × Itemset × ℚ

/-- The mutable state of an `Apriori` object: the constructor arguments and
the five accumulating containers initialised in `Apriori.__init__`. -/
structure Apriori where
  baskets : List Itemset
  n_baskets : ℕ
  min_supp : ℚ
  min_conf : ℚ
  cand_list : List (List Itemset) := []
  freq_list : List (List Itemset) := []
  supp_dict : List (Itemset × ℚ) := []
  conseq_dict : List (Itemset × List (List Itemset)) := []
  rule_list : List Rule := []
deriving DecidableEq

/-- `Apriori.__init__`: store the baskets, their count, and the two
thresholds; all containers start empty. -/
def mkApriori (baskets : List Itemset) (min_supp min_conf : ℚ) : Apriori :=
  { baskets := baskets, n_baskets := baskets.length,
    min_supp := min_supp, min_conf := min_conf }

/-- Add an element to a Python set modelled as a duplicate-free list:
`s.add(c)` inserts only if absent. -/
def setInsert (l : List Itemset) (c : Itemset) : List Itemset :=
  if c ∈ l then l else l ++ [c]

/-- Perform a sequence of Python set insertions in order. -/
def setInsertAll (acc : List Itemset) (new : List Itemset) : List Itemset :=
  new.foldl setInsert acc

/-- All ordered pairs `(l[i], l[j])` with `i < j`, in the order produced by
the source's nested loops `for i, _ in enumerate(l): for j, _ in enumerate(l): if i < j`. -/
def pairsLt {α : Type} : List α → List (α × α)
  | [] => []
  | a :: rest => rest.map (fun b => (a, b)) ++ pairsLt rest

/-- Look up a key in a Python dict modelled as a binding history: the value
of the last binding, if any. -/
def pyFind {α : Type} (d : List (Itemset × α)) (key : Itemset) : Option α :=
  (d.reverse.find? (fun p => p.1 = key)).map (fun p => p.2)

/-- Rewrite the value of the first binding of `key` in the list. -/
def setFirstVal {α : Type} : List (Itemset × α) → Itemset → (α → α) → List (Itemset × α)
  | [], _, _ => []
  | p :: rest, key, f =>
      if p.1 = key then (p.1, f p.2) :: rest else p :: setFirstVal rest key f

/-- Mutate in place the value held under `key` (its last binding), as Python
`d[key].append(...)` does. -/
def pyModifyLast {α : Type} (d : List (Itemset × α)) (key : Itemset) (f : α → α) :
    List (Itemset × α) :=
  (setFirstVal d.reverse key f).reverse

/-- Python `d[key]` where a missing key raises `KeyError`. -/
def require {α : Type} : Option α → Except String α
  | some a => .ok a
  | none => .error "KeyError"

/-- The set of all items occurring in any basket. -/
def itemsUniv (st : Apriori) : Itemset :=
  st.baskets.foldl (fun u b => u ∪ b) ∅

/-- The number of baskets containing `c` as a subset: the count accumulated
for `c` by the nested loops of `gen_freqs`
(`for basket in self.baskets: for cand in ...: if cand.issubset(basket)`). -/
def countOf (st : Apriori) (c : Itemset) : ℕ :=
  st.baskets.countP (fun b => c ⊆ b)

/-- The exact support ratio `cnt / self.n_baskets` of an itemset. -/
def suppQ (st : Apriori) (c : Itemset) : ℚ :=
  (countOf st c : ℚ) / (st.n_baskets : ℚ)

/-- The sequence of singleton itemsets produced by
`for basket in self.baskets: for item in basket: cands.add(frozenset([item]))`,
iterating each basket in ascending item order. -/
def singletonSeq (st : Apriori) : List Itemset :=
  st.baskets.flatMap (fun b => (b.sort (· ≤ ·)).map (fun x => ({x} : Itemset)))

/-- The sequence of unions `freq_i | freq_j` (over index pairs `i < j`) that
pass the `len(cand) == k + 1` test in `gen_cands`. -/
def unionSeq (freqs : List Itemset) (k : ℕ) : List Itemset :=
  (pairsLt freqs).filterMap
    (fun p => if (p.1 ∪ p.2).card = k + 1 then some (p.1 ∪ p.2) else none)

/-- The candidate set built by `gen_cands` for size `k+1`: all distinct
singletons of basket items when `k = 0`, otherwise all distinct unions of
two frequent itemsets of size `k` whose union has size `k+1`. -/
def candsOf (st : Apriori) (k : ℕ) : List Itemset :=
  if k = 0 then setInsertAll [] (singletonSeq st)
  else setInsertAll [] (unionSeq (st.freq_list.getD (k - 1) []) k)

/-- `Apriori.gen_cands`: compute the candidates of size `k+1` and append
them to `cand_list` when non-empty. -/
def gen_cands (st : Apriori) (k : ℕ) : Apriori :=
  let cands := candsOf st k
  if cands.isEmpty then st else { st with cand_list := st.cand_list ++ [cands] }

/-- `Apriori.gen_freqs`: scan the candidates of size `k` against the baskets,
keep those whose support ratio meets `min_supp`, record their supports in
`supp_dict`, and append the kept list to `freq_list` when non-empty.
The division `cnt / self.n_baskets` raises `ZeroDivisionError` when there
are no baskets (it is executed once per candidate). -/
def gen_freqs (rnd : ℚ → ℚ) (st : Apriori) (k : ℕ) : Except String Apriori :=
  let cands := st.cand_list.getD (k - 1) []
  if st.n_baskets = 0 ∧ ¬ cands.isEmpty then .error "ZeroDivisionError"
  else
    let freqs := cands.filter (fun c => st.min_supp ≤ rnd (suppQ st c))
    .ok { st with
          supp_dict := st.supp_dict ++ freqs.map (fun c => (c, rnd (suppQ st c))),
          freq_list := if freqs.isEmpty then st.freq_list else st.freq_list ++ [freqs] }

/-- `Apriori.check_rule`: compute `ante = freq - conseq` and
`conf = supp_dict[freq] / supp_dict[ante]` (a missing key raises `KeyError`,
a zero divisor raises `ZeroDivisionError`); when `conf >= min_conf`, append
`(ante, conseq, conf)` to `rule_list` and report `True`. -/
def check_rule (rnd : ℚ → ℚ) (st : Apriori) (freq conseq : Itemset) :
    Except String (Apriori × Bool) := do
  let ante := freq \ conseq
  let sF ← require (pyFind st.supp_dict freq)
  let sA ← require (pyFind st.supp_dict ante)
  if sA = 0 then .error "ZeroDivisionError"
  else
    let conf := rnd (sF / sA)
    if st.min_conf ≤ conf then
      .ok ({ st with rule_list := st.rule_list ++ [(ante, conseq, conf)] }, true)
    else .ok (st, false)

/-- The `k = 0` loop of `gen_conseqs`: for each item of `freq` (in ascending
order) check the singleton-consequence rule, keeping the accepted singletons
in order. -/
def checkItems (rnd : ℚ → ℚ) (st : Apriori) (freq : Itemset) :
    List ℕ → Except String (Apriori × List Itemset)
  | [] => .ok (st, [])
  | item :: rest => do
      let (st1, b) ← check_rule rnd st freq ({item} : Itemset)
      let (st2, conseqs) ← checkItems rnd st1 freq rest
      .ok (st2, (if b then [({item} : Itemset)] else []) ++ conseqs)

/-- The `k > 0` loop of `gen_conseqs`: for each index pair `i < j` of the
previous consequence level, form the union and — only when its size is
`k+1`, by the `and` short-circuit — check the rule, keeping accepted unions
in order. -/
def checkPairs (rnd : ℚ → ℚ) (st : Apriori) (freq : Itemset) (k : ℕ) :
    List (Itemset × Itemset) → Except String (Apriori × List Itemset)
  | [] => .ok (st, [])
  | p :: rest =>
      let c := p.1 ∪ p.2
      if c.card = k + 1 then do
        let (st1, b) ← check_rule rnd st freq c
        let (st2, conseqs) ← checkPairs rnd st1 freq k rest
        .ok (st2, (if b then [c] else []) ++ conseqs)
      else checkPairs rnd st freq k rest

/-- `Apriori.gen_conseqs`: build the consequences of size `k+1` for `freq`
(from its single items when `k = 0`, otherwise from index pairs of the
previous consequence level `conseq_dict[freq][k-1]`), and append the list to
`conseq_dict[freq]` when non-empty. -/
def gen_conseqs (rnd : ℚ → ℚ) (st : Apriori) (freq : Itemset) (k : ℕ) :
    Except String Apriori := do
  if k = 0 then
    let (st1, conseqs) ← checkItems rnd st freq (freq.sort (· ≤ ·))
    if conseqs.isEmpty then .ok st1
    else do
      let _ ← require (pyFind st1.conseq_dict freq)
      .ok { st1 with conseq_dict := pyModifyLast st1.conseq_dict freq (fun ls => ls ++ [conseqs]) }
  else do
    let levels ← require (pyFind st.conseq_dict freq)
    let (st1, conseqs) ← checkPairs rnd st freq k (pairsLt (levels.getD (k - 1) []))
    if conseqs.isEmpty then .ok st1
    else do
      let _ ← require (pyFind st1.conseq_dict freq)
      .ok { st1 with conseq_dict := pyModifyLast st1.conseq_dict freq (fun ls => ls ++ [conseqs]) }

/-- The inner `while k < i` loop of `apriori` for one frequent itemset
`freq` of level index `i`: generate consequences of growing size, stopping
at `k = i`, or earlier as soon as a size yields no kept consequence
(`len(self.conseq_dict[freq]) < k`). -/
def conseqLoop (rnd : ℚ → ℚ) (freq : Itemset) (i : ℕ) (k : ℕ) (st : Apriori) :
    Except String Apriori :=
  if h : k < i then do
    let st1 ← gen_conseqs rnd st freq k
    let levels ← require (pyFind st1.conseq_dict freq)
    if levels.length < k + 1 then .ok st1
    else conseqLoop rnd freq i (k + 1) st1
  else .ok st
termination_by i - k
decreasing_by omega

/-- The `for freq in freqs` loop of `apriori`: bind `conseq_dict[freq]` to a
fresh empty list, then run the consequence loop for `freq`. -/
def processFreqs (rnd : ℚ → ℚ) (i : ℕ) : List Itemset → Apriori → Except String Apriori
  | [], st => .ok st
  | freq :: rest, st => do
      let st1 := { st with conseq_dict := st.conseq_dict ++ [(freq, [])] }
      let st2 ← conseqLoop rnd freq i 0 st1
      processFreqs rnd i rest st2

/-- The `for i, freqs in enumerate(self.freq_list)` loop of `apriori`:
levels with `i > 0` (itemsets of size at least two) get their rules
derived. -/
def processLevels (rnd : ℚ → ℚ) : ℕ → List (List Itemset) → Apriori → Except String Apriori
  | _, [], st => .ok st
  | i, freqs :: rest, st => do
      let st1 ← if i = 0 then .ok st else processFreqs rnd i freqs st
      processLevels rnd (i + 1) rest st1

/-- The `while True` loop of `apriori`, run on fuel (`none` = fuel
exhausted): generate candidates of size `k+1`, stop if none were appended;
filter them, stop if no frequent level was appended; otherwise continue. -/
def freqPhase (rnd : ℚ → ℚ) : ℕ → ℕ → Apriori → Option (Except String Apriori)
  | 0, _, _ => none
  | fuel + 1, k, st =>
      let st1 := gen_cands st k
      if st1.cand_list.length < k + 1 then some (.ok st1)
      else
        match gen_freqs rnd st1 (k + 1) with
        | .error e => some (.error e)
        | .ok st2 =>
            if st2.freq_list.length < k + 1 then some (.ok st2)
            else freqPhase rnd fuel (k + 1) st2

/-- Fuel sufficient for the level-wise loop: one level per possible itemset
size, bounded by the number of distinct items (proved never exhausted). -/
def fuelOf (st : Apriori) : ℕ := (itemsUniv st).card + 2

/-- `Apriori.apriori`: run the level-wise frequent-itemset loop, then derive
rules level by level.  `none` models a run that exhausts its fuel;
`some (.error e)` a Python exception; `some (.ok st)` a normal return with
final object state `st`. -/
def apriori (rnd : ℚ → ℚ) (st : Apriori) : Option (Except String Apriori) :=
  match freqPhase rnd (fuelOf st) 0 st with
  | none => none
  | some (.error e) => some (.error e)
  | some (.ok st1) => some (processLevels rnd 0 st1.freq_list st1)

/-- The run under idealised exact rational arithmetic. -/
def aprioriQ (st : Apriori) : Option (Except String Apriori) := apriori id st

/-- Round a rational to the nearest integer, ties to even (the IEEE-754
default rounding of the significand). -/
def roundHalfEven (q : ℚ) : ℤ :=
  let f : ℤ := ⌊q⌋
  let frac : ℚ := q - f
  if frac < 1/2 then f
  else if 1/2 < frac then f + 1
  else if 2 ∣ f then f else f + 1

/-- Binary logarithm by repeated scaling, on fuel (the fuel covers any
exponent that a binary64 value, and far beyond, can have). -/
def ilog2Aux : ℕ → ℚ → ℤ
  | 0, _ => 0
  | n + 1, q =>
      if q < 1 then ilog2Aux n (2 * q) - 1
      else if 2 ≤ q then ilog2Aux n (q / 2) + 1
      else 0

/-- The exponent `e` with `2 ^ e ≤ q < 2 ^ (e + 1)` for positive `q`. -/
def ilog2 (q : ℚ) : ℤ := ilog2Aux 4200 q

/-- The IEEE-754 binary64 (Python `float`) value nearest to a nonnegative
rational: round the 53-bit significand to nearest, ties to even.  Overflow
and subnormal underflow are not modelled; all values arising in the runs
considered here are zero or normal, far from either extreme. -/
def roundDouble (q : ℚ) : ℚ :=
  if q ≤ 0 then 0
  else
    let e : ℤ := ilog2 q
    ((roundHalfEven (q * (2 : ℚ) ^ (52 - e)) : ℚ)) * (2 : ℚ) ^ (e - 52)

/-- The run under Python `float` (IEEE-754 binary64) arithmetic: every
division result is rounded to the nearest double. -/
def aprioriF (st : Apriori) : Option (Except String Apriori) := apriori roundDouble st

/-- The final object state of a run that returned normally. -/
def finalState (r : Option (Except String Apriori)) : Option Apriori :=
  match r with
  | some (.ok s) => some s
  | _ => none

/-- The rule list of a run that returned normally (empty otherwise). -/
def rulesOf (r : Option (Except String Apriori)) : List Rule :=
  ((finalState r).map (fun s => s.rule_list)).getD []

/-- The keys of a dict modelled as a binding history, in binding order. -/
def keysOf {α : Type} (d : List (Itemset × α)) : List Itemset := d.map Prod.fst

/-- The candidate level of index `l` (itemsets of size `l + 1`). -/
def candAt (st : Apriori) (l : ℕ) : List Itemset := st.cand_list.getD l []

/-- The frequent level of index `l` (itemsets of size `l + 1`). -/
def freqAt (st : Apriori) (l : ℕ) : List Itemset := st.freq_list.getD l []

/-- Soundness of one emitted rule `(A, C, conf)` with respect to a final
state: `A` and `C` are disjoint, `C` is a strict non-empty subset of a
recorded frequent itemset `F`, `A = F \ C` is non-empty, `A ∪ C = F`, the
confidence is the quotient of the supports of `F` and `A` as stored in
`supp_dict`, and it meets `min_conf`. -/
def RuleSound (st : Apriori) (r : Rule) : Prop :=
  ∃ F ∈ st.freq_list.flatten,
    r.2.1 ⊆ F ∧ r.2.1.Nonempty ∧ r.2.1 ≠ F ∧
    r.1 = F \ r.2.1 ∧ r.1.Nonempty ∧ r.1 ∩ r.2.1 = ∅ ∧ r.1 ∪ r.2.1 = F ∧
    (∃ sF sA, pyFind st.supp_dict F = some sF ∧ pyFind st.supp_dict r.1 = some sA ∧
      r.2.2 = sF / sA) ∧ st.min_conf ≤ r.2.2

/-- The basket collection of the specification's concrete scenario. -/
def scenarioBaskets : List Itemset := [{1,2,3}, {1,2}, {1,3}, {2,3}, {1,2,3}]

/-- The concrete scenario, constructed with exact thresholds 0.6 and 0.75. -/
def scenarioInit : Apriori := mkApriori scenarioBaskets (3/5) (3/4)

/-- The final state of the exact-arithmetic run on the concrete scenario. -/
def scenarioState : Apriori := (finalState (aprioriQ scenarioInit)).getD (mkApriori [] 1 1)

/-- A small state with one pending candidate level, used to instantiate the
filter theorem. -/
def c3St : Apriori :=
  { mkApriori [{1}, {1,2}] (1/2) (1/2) with cand_list := [[{1}, {2}]] }

/-- The state after filtering the pending candidate level of `c3St`. -/
def c3St2 : Apriori := (gen_freqs id c3St 1).toOption.getD c3St

/-- A small state with one frequent level, used to instantiate the candidate
generation theorem. -/
def c5St : Apriori :=
  { mkApriori [{1}, {2}] 1 1 with freq_list := [[{1}, {2}]] }

/-- Loop invariant of the `while True` loop of `apriori`, holding whenever
the loop head is reached with counter `k`: `k` candidate levels and `k`
frequent levels exist; candidate level `l` is a duplicate-free non-empty
list of itemsets of size `l + 1` drawn from the items of the baskets,
characterised by the generation rule of `gen_cands`; frequent level `l` is
the `min_supp`-filter of candidate level `l`, non-empty; and `supp_dict`
holds exactly one binding per frequent itemset, level by level, with the
support computed by `gen_freqs`. -/
structure Phase1Inv (rnd : ℚ → ℚ) (st : Apriori) (k : ℕ) : Prop where
  nb : st.n_baskets = st.baskets.length
  clen : st.cand_list.length = k
  flen : st.freq_list.length = k
  cand_ne : ∀ l, l < k → candAt st l ≠ []
  cand_nodup : ∀ l, (candAt st l).Nodup
  cand_card : ∀ l, ∀ c ∈ candAt st l, c.card = l + 1
  cand_sub : ∀ l, ∀ c ∈ candAt st l, c ⊆ itemsUniv st
  cand_zero : 0 < k → ∀ c : Itemset,
    (c ∈ candAt st 0 ↔ ∃ b ∈ st.baskets, ∃ x ∈ b, c = {x})
  cand_succ : ∀ l, l + 1 < k → ∀ c : Itemset,
    (c ∈ candAt st (l + 1) ↔
      ∃ p ∈ pairsLt (freqAt st l), (p.1 ∪ p.2).card = l + 2 ∧ c = p.1 ∪ p.2)
  freq_eq : ∀ l, l < k →
    freqAt st l = (candAt st l).filter (fun c => st.min_supp ≤ rnd (suppQ st c))
  supp_eq : st.supp_dict
    = (List.range k).flatMap (fun l => (freqAt st l).map (fun c => (c, rnd (suppQ st c))))
  freq_ne : ∀ l, l < k → freqAt st l ≠ []

/-- The state of affairs when the `while True` loop of `apriori` exits
normally: the same level structure as `Phase1Inv`, except that one
candidate level may remain without a corresponding frequent level (the
loop stopped because no candidate passed the filter). -/
structure Phase1Post (rnd : ℚ → ℚ) (st : Apriori) : Prop where
  nb : st.n_baskets = st.baskets.length
  len_lower : st.freq_list.length ≤ st.cand_list.length
  len_upper : st.cand_list.length ≤ st.freq_list.length + 1
  cand_ne : ∀ l, l < st.cand_list.length → candAt st l ≠ []
  cand_nodup : ∀ l, (candAt st l).Nodup
  cand_card : ∀ l, ∀ c ∈ candAt st l, c.card = l + 1
  cand_sub : ∀ l, ∀ c ∈ candAt st l, c ⊆ itemsUniv st
  cand_zero : 0 < st.cand_list.length → ∀ c : Itemset,
    (c ∈ candAt st 0 ↔ ∃ b ∈ st.baskets, ∃ x ∈ b, c = {x})
  cand_succ : ∀ l, l + 1 < st.cand_list.length → ∀ c : Itemset,
    (c ∈ candAt st (l + 1) ↔
      ∃ p ∈ pairsLt (freqAt st l), (p.1 ∪ p.2).card = l + 2 ∧ c = p.1 ∪ p.2)
  freq_eq : ∀ l, l < st.freq_list.length →
    freqAt st l = (candAt st l).filter (fun c => st.min_supp ≤ rnd (suppQ st c))
  supp_eq : st.supp_dict
    = (List.range st.freq_list.length).flatMap
        (fun l => (freqAt st l).map (fun c => (c, rnd (suppQ st c))))
  freq_ne : ∀ l, l < st.freq_list.length → freqAt st l ≠ []

/-- The fields of the state that the rule-derivation phase never changes. -/
def Frame2 (st st2 : Apriori) : Prop :=
  st2.baskets = st.baskets ∧ st2.n_baskets = st.n_baskets
  ∧ st2.min_supp = st.min_supp ∧ st2.min_conf = st.min_conf
  ∧ st2.cand_list = st.cand_list ∧ st2.freq_list = st.freq_list
  ∧ st2.supp_dict = st.supp_dict

/-- Well-formedness of the consequence levels built for one frequent
itemset `freq`: level `p` is a non-empty list of non-empty subsets of
`freq` of size `p + 1`. -/
def LevelsOK (freq : Itemset) (levels : List (List Itemset)) : Prop :=
  ∀ p, p < levels.length →
    levels.getD p [] ≠ [] ∧ ∀ c ∈ levels.getD p [], c ⊆ freq ∧ c.card = p + 1

/-- Both support lookups performed by `check_rule` succeed and the divisor
is non-zero, so the call cannot raise. -/
def CheckOK (st : Apriori) (freq conseq : Itemset) : Prop :=
  ∃ sF sA : ℚ, pyFind st.supp_dict freq = some sF
    ∧ pyFind st.supp_dict (freq \ conseq) = some sA ∧ sA ≠ 0

/-- A rule as appended by a successful `check_rule` call for `(freq,
conseq)` under exact arithmetic. -/
def RulePat (st : Apriori) (freq conseq : Itemset) (r : Rule) : Prop :=
  ∃ sF sA : ℚ, pyFind st.supp_dict freq = some sF
    ∧ pyFind st.supp_dict (freq \ conseq) = some sA
    ∧ r = (freq \ conseq, conseq, sF / sA) ∧ st.min_conf ≤ sF / sA

/-- The keys bound in `conseq_dict` by the rule-derivation phase when its
enumeration starts at index `i`: all members of the levels with actual
index at least one. -/
def keysFrom : ℕ → List (List Itemset) → List Itemset
  | _, [] => []
  | i, freqs :: rest => (if i = 0 then [] else freqs) ++ keysFrom (i + 1) rest

/-- The context carried through the rule-derivation phase under exact
arithmetic: a positive support threshold and a state shaped like a normal
exit of the frequent-itemset phase. -/
def P2Ctx (st : Apriori) : Prop := 0 < st.min_supp ∧ Phase1Post id st

/-! ## Basic lemmas about the container model -/

theorem mem_setInsert {l : List Itemset} {c a : Itemset} :
    a ∈ setInsert l c ↔ a ∈ l ∨ a = c := by
  unfold setInsert
  by_cases h : c ∈ l
  · simp only [if_pos h]
    constructor
    · exact Or.inl
    · rintro (h1 | rfl)
      · exact h1
      · exact h
  · simp [if_neg h]

theorem nodup_setInsert {l : List Itemset} {c : Itemset} (h : l.Nodup) :
    (setInsert l c).Nodup := by
  unfold setInsert
  by_cases hc : c ∈ l
  · simpa [if_pos hc]
  · rw [if_neg hc, List.nodup_append]
    refine ⟨h, List.nodup_singleton c, ?_⟩
    intro a ha hb
    rw [List.mem_singleton] at hb
    exact hc (hb ▸ ha)

theorem mem_setInsertAll {acc new : List Itemset} {a : Itemset} :
    a ∈ setInsertAll acc new ↔ a ∈ acc ∨ a ∈ new := by
  induction new generalizing acc with
  | nil => simp [setInsertAll]
  | cons x xs ih =>
      show a ∈ setInsertAll (setInsert acc x) xs ↔ _
      rw [ih, mem_setInsert]
      simp only [List.mem_cons]
      tauto

theorem nodup_setInsertAll {acc new : List Itemset} (h : acc.Nodup) :
    (setInsertAll acc new).Nodup := by
  induction new generalizing acc with
  | nil => exact h
  | cons x xs ih => exact ih (nodup_setInsert h)

theorem mem_pairsLt {α : Type} {l : List α} {p : α × α} :
    p ∈ pairsLt l ↔ ∃ (i j : ℕ) (hi : i < l.length) (hj : j < l.length),
      i < j ∧ p = (l.get ⟨i, hi⟩, l.get ⟨j, hj⟩) := by
  induction l with
  | nil => simp [pairsLt]
  | cons a rest ih =>
      simp only [pairsLt, List.mem_append, List.mem_map, ih]
      constructor
      · rintro (⟨b, hb, rfl⟩ | ⟨i, j, hi, hj, hij, rfl⟩)
        · obtain ⟨⟨j, hj⟩, rfl⟩ := List.mem_iff_get.mp hb
          exact ⟨0, j + 1, Nat.succ_pos _, Nat.succ_lt_succ hj, Nat.succ_pos _, rfl⟩
        · exact ⟨i + 1, j + 1, Nat.succ_lt_succ hi, Nat.succ_lt_succ hj,
            Nat.succ_lt_succ hij, rfl⟩
      · rintro ⟨i, j, hi, hj, hij, rfl⟩
        match i, j with
        | 0, j + 1 =>
            left
            exact ⟨rest.get ⟨j, Nat.lt_of_succ_lt_succ hj⟩, List.get_mem _ _ _, rfl⟩
        | i + 1, j + 1 =>
            right
            exact ⟨i, j, Nat.lt_of_succ_lt_succ hi, Nat.lt_of_succ_lt_succ hj,
              Nat.lt_of_succ_lt_succ hij, rfl⟩

theorem pairsLt_of_mem_ne {α : Type} {l : List α} {a b : α}
    (ha : a ∈ l) (hb : b ∈ l) (hne : a ≠ b) :
    (a, b) ∈ pairsLt l ∨ (b, a) ∈ pairsLt l := by
  obtain ⟨⟨i, hi⟩, rfl⟩ := List.mem_iff_get.mp ha
  obtain ⟨⟨j, hj⟩, rfl⟩ := List.mem_iff_get.mp hb
  rcases Nat.lt_trichotomy i j with h | h | h
  · exact Or.inl (mem_pairsLt.mpr ⟨i, j, hi, hj, h, rfl⟩)
  · exact absurd (by simp [h]) hne
  · exact Or.inr (mem_pairsLt.mpr ⟨j, i, hj, hi, h, rfl⟩)

theorem pyFind_nil {α : Type} (key : Itemset) :
    pyFind ([] : List (Itemset × α)) key = none := rfl

theorem pyFind_append_single {α : Type} (d : List (Itemset × α)) (k : Itemset) (v : α)
    (key : Itemset) :
    pyFind (d ++ [(k, v)]) key = if key = k then some v else pyFind d key := by
  unfold pyFind
  rw [List.reverse_append, List.reverse_singleton, List.singleton_append]
  by_cases h : key = k
  · subst h
    rw [List.find?_cons_of_pos _ (by simp)]
    simp
  · rw [List.find?_cons_of_neg _ (by simpa using fun h2 => h h2.symm), if_neg h]

theorem pyFind_append {α : Type} (d1 d2 : List (Itemset × α)) (key : Itemset) :
    pyFind (d1 ++ d2) key = ((pyFind d2 key).or (pyFind d1 key)) := by
  unfold pyFind
  rw [List.reverse_append, List.find?_append]
  cases h : List.find? (fun p => p.1 = key) d2.reverse <;> simp [Option.or]

theorem pyFind_mem {α : Type} {d : List (Itemset × α)} {key : Itemset} {v : α}
    (h : pyFind d key = some v) : (key, v) ∈ d := by
  unfold pyFind at h
  cases hf : List.find? (fun p => p.1 = key) d.reverse with
  | none => rw [hf] at h; simp at h
  | some p =>
      rw [hf] at h
      have hp1 : p.1 = key := by simpa using List.find?_some hf
      have hmem : p ∈ d := List.mem_reverse.mp (List.mem_of_find?_eq_some hf)
      have hv : p.2 = v := by simpa using h
      have hpv : (key, v) = p := by
        cases p
        cases hp1
        cases hv
        rfl
      rw [hpv]
      exact hmem

theorem pyFind_eq_none {α : Type} {d : List (Itemset × α)} {key : Itemset} :
    pyFind d key = none ↔ key ∉ keysOf d := by
  constructor
  · intro h hmem
    obtain ⟨p, hp, hkey⟩ := List.mem_map.mp hmem
    cases hf : d.reverse.find? (fun q => q.1 = key) with
    | some q =>
        unfold pyFind at h
        rw [hf] at h
        exact absurd h (by simp)
    | none =>
        rw [List.find?_eq_none] at hf
        exact hf p (by simpa using hp) (by simpa using hkey)
  · intro h
    cases hf : d.reverse.find? (fun q => q.1 = key) with
    | none =>
        unfold pyFind
        rw [hf]
        rfl
    | some q =>
        have hq : q.1 = key := by simpa using List.find?_some hf
        have hmem : q ∈ d := List.mem_reverse.mp (List.mem_of_find?_eq_some hf)
        exact absurd (List.mem_map.mpr ⟨q, hmem, hq⟩) h

theorem pyFind_isSome {α : Type} {d : List (Itemset × α)} {key : Itemset}
    (h : key ∈ keysOf d) : ∃ v, pyFind d key = some v := by
  cases hf : pyFind d key with
  | none => exact absurd (pyFind_eq_none.mp hf) (by simpa using h)
  | some v => exact ⟨v, rfl⟩

theorem keysOf_append {α : Type} (d1 d2 : List (Itemset × α)) :
    keysOf (d1 ++ d2) = keysOf d1 ++ keysOf d2 := by
  simp [keysOf]

theorem keysOf_setFirstVal {α : Type} (d : List (Itemset × α)) (key : Itemset) (f : α → α) :
    keysOf (setFirstVal d key f) = keysOf d := by
  induction d with
  | nil => rfl
  | cons p rest ih =>
      unfold setFirstVal
      by_cases h : p.1 = key
      · simp [if_pos h, keysOf, h]
      · simp only [if_neg h]
        simp [keysOf] at ih ⊢
        exact ih

theorem keysOf_pyModifyLast {α : Type} (d : List (Itemset × α)) (key : Itemset) (f : α → α) :
    keysOf (pyModifyLast d key f) = keysOf d := by
  unfold pyModifyLast
  have h1 : keysOf (setFirstVal d.reverse key f).reverse
      = (keysOf (setFirstVal d.reverse key f)).reverse := by simp [keysOf]
  rw [h1, keysOf_setFirstVal]
  simp [keysOf]

theorem find?_setFirstVal_self {α : Type} (d : List (Itemset × α)) (key : Itemset) (f : α → α) :
    (setFirstVal d key f).find? (fun p => p.1 = key)
      = (d.find? (fun p => p.1 = key)).map (fun p => (p.1, f p.2)) := by
  induction d with
  | nil => rfl
  | cons p rest ih =>
      unfold setFirstVal
      by_cases h : p.1 = key
      · simp [List.find?_cons, h]
      · simp only [if_neg h, List.find?_cons]
        have : ((p.1 = key) : Bool) = false := by simpa using h
        simp [this, ih]

theorem find?_setFirstVal_other {α : Type} (d : List (Itemset × α)) (key key2 : Itemset)
    (f : α → α) (hne : key2 ≠ key) :
    (setFirstVal d key f).find? (fun p => p.1 = key2)
      = d.find? (fun p => p.1 = key2) := by
  induction d with
  | nil => rfl
  | cons p rest ih =>
      unfold setFirstVal
      by_cases h : p.1 = key
      · have hb : ¬ p.1 = key2 := fun h2 => hne (by rw [← h2]; exact h)
        rw [if_pos h]
        rw [List.find?_cons_of_neg _ (by simpa using hb),
          List.find?_cons_of_neg _ (by simpa using hb)]
      · rw [if_neg h]
        by_cases hb : p.1 = key2
        · rw [List.find?_cons_of_pos _ (by simpa using hb),
            List.find?_cons_of_pos _ (by simpa using hb)]
        · rw [List.find?_cons_of_neg _ (by simpa using hb),
            List.find?_cons_of_neg _ (by simpa using hb), ih]

theorem pyFind_pyModifyLast_self {α : Type} (d : List (Itemset × α)) (key : Itemset)
    (f : α → α) :
    pyFind (pyModifyLast d key f) key = (pyFind d key).map f := by
  unfold pyFind pyModifyLast
  rw [List.reverse_reverse, find?_setFirstVal_self]
  cases List.find? (fun p => p.1 = key) d.reverse <;> simp

theorem pyFind_pyModifyLast_other {α : Type} (d : List (Itemset × α)) (key key2 : Itemset)
    (f : α → α) (hne : key2 ≠ key) :
    pyFind (pyModifyLast d key f) key2 = pyFind d key2 := by
  unfold pyFind pyModifyLast
  rw [List.reverse_reverse, find?_setFirstVal_other _ _ _ _ hne]

theorem foldl_union_mem {l : List Itemset} {init : Itemset} {x : ℕ} :
    x ∈ l.foldl (fun u b => u ∪ b) init ↔ x ∈ init ∨ ∃ b ∈ l, x ∈ b := by
  induction l generalizing init with
  | nil => simp
  | cons b rest ih =>
      rw [List.foldl_cons, ih]
      simp only [Finset.mem_union, List.mem_cons]
      constructor
      · rintro ((h | h) | ⟨b2, hb2, hx⟩)
        · exact Or.inl h
        · exact Or.inr ⟨b, Or.inl rfl, h⟩
        · exact Or.inr ⟨b2, Or.inr hb2, hx⟩
      · rintro (h | ⟨b2, (rfl | hb2), hx⟩)
        · exact Or.inl (Or.inl h)
        · exact Or.inl (Or.inr hx)
        · exact Or.inr ⟨b2, hb2, hx⟩

theorem mem_itemsUniv {st : Apriori} {x : ℕ} :
    x ∈ itemsUniv st ↔ ∃ b ∈ st.baskets, x ∈ b := by
  unfold itemsUniv
  rw [foldl_union_mem]
  simp

theorem basket_subset_itemsUniv {st : Apriori} {b : Itemset} (h : b ∈ st.baskets) :
    b ⊆ itemsUniv st := fun _x hx => mem_itemsUniv.mpr ⟨b, h, hx⟩

theorem countOf_anti {st : Apriori} {A B : Itemset} (h : A ⊆ B) :
    countOf st B ≤ countOf st A := by
  unfold countOf
  apply List.countP_mono_left
  intro b _ hb
  exact decide_eq_true (Finset.Subset.trans h (of_decide_eq_true hb))

theorem suppQ_anti {st : Apriori} {A B : Itemset} (h : A ⊆ B) :
    suppQ st B ≤ suppQ st A := by
  unfold suppQ
  rcases Nat.eq_zero_or_pos st.n_baskets with h0 | h0
  · simp [h0]
  · have hn : (0 : ℚ) < (st.n_baskets : ℚ) := by exact_mod_cast h0
    rw [div_le_div_iff_of_pos_right hn]
    exact_mod_cast countOf_anti h

theorem suppQ_nonneg (st : Apriori) (c : Itemset) : 0 ≤ suppQ st c := by
  unfold suppQ
  positivity

/-! ## Characterisation of candidate generation (`gen_cands`) -/

theorem mem_candsOf_zero {st : Apriori} {c : Itemset} :
    c ∈ candsOf st 0 ↔ ∃ b ∈ st.baskets, ∃ x ∈ b, c = {x} := by
  unfold candsOf
  rw [if_pos rfl, mem_setInsertAll]
  unfold singletonSeq
  simp only [List.not_mem_nil, false_or, List.mem_flatMap, List.mem_map, Finset.mem_sort]
  constructor
  · rintro ⟨b, hb, x, hx, rfl⟩
    exact ⟨b, hb, x, hx, rfl⟩
  · rintro ⟨b, hb, x, hx, rfl⟩
    exact ⟨b, hb, x, hx, rfl⟩

theorem mem_candsOf_pos {st : Apriori} {k : ℕ} (hk : 0 < k) {c : Itemset} :
    c ∈ candsOf st k ↔ ∃ p ∈ pairsLt (st.freq_list.getD (k - 1) []),
      (p.1 ∪ p.2).card = k + 1 ∧ c = p.1 ∪ p.2 := by
  unfold candsOf
  rw [if_neg (Nat.pos_iff_ne_zero.mp hk), mem_setInsertAll]
  unfold unionSeq
  simp only [List.not_mem_nil, false_or, List.mem_filterMap]
  constructor
  · rintro ⟨p, hp, hf⟩
    by_cases hcard : (p.1 ∪ p.2).card = k + 1
    · rw [if_pos hcard] at hf
      cases hf
      exact ⟨p, hp, hcard, rfl⟩
    · rw [if_neg hcard] at hf
      cases hf
  · rintro ⟨p, hp, hcard, rfl⟩
    exact ⟨p, hp, by rw [if_pos hcard]⟩

theorem nodup_candsOf (st : Apriori) (k : ℕ) : (candsOf st k).Nodup := by
  unfold candsOf
  split <;> exact nodup_setInsertAll List.nodup_nil

theorem candsOf_pos_nil {st : Apriori} {k : ℕ} (hk : 0 < k)
    (h : st.freq_list.getD (k - 1) [] = []) : candsOf st k = [] := by
  unfold candsOf
  rw [if_neg (Nat.pos_iff_ne_zero.mp hk), h]
  rfl

/-! ## Concrete-run theorems -/

set_option maxRecDepth 1000000

/-- C1: contrary to the claim, no `InvalidConfiguration` error exists in the
code: neither the constructor nor `apriori()` validates anything.  With an
empty basket collection the run returns normally with every container
empty, and with `min_supp` or `min_conf` outside `(0, 1]` (here `3/2`, `0`)
the run also returns normally. -/
theorem c1_invalid_configuration_not_rejected :
    aprioriQ (mkApriori [] (3/5) (4/5)) = some (.ok (mkApriori [] (3/5) (4/5)))
  ∧ (finalState (aprioriQ (mkApriori [{1}] (3/2) (1/2)))).isSome = true
  ∧ (finalState (aprioriQ (mkApriori [{1}] 0 (1/2)))).isSome = true
  ∧ (finalState (aprioriQ (mkApriori [{1}, {2}] (1/2) 0))).isSome = true := by
  exact ⟨by with_unfolding_all rfl, by with_unfolding_all rfl,
    by with_unfolding_all rfl, by with_unfolding_all rfl⟩

/-- C4: on the concrete scenario the idealised exact-arithmetic run matches
the claim (supports 4/5 for singletons and 3/5 for pairs, `{1,2,3}` absent,
all six boundary rules emitted with confidence 3/4); but under the
program's `float` arithmetic (thresholds are the doubles written `0.6` and
`0.75`) the computed confidence of every candidate rule is the double just
below 3/4, so the rule collection of the actual run is empty: the claimed
rules `{1}→{2}` and `{2}→{1}` are not produced. -/
theorem c4_concrete_scenario :
    (finalState (aprioriQ scenarioInit)).map (fun s => s.supp_dict)
      = some [({1}, 4/5), ({2}, 4/5), ({3}, 4/5), ({1,2}, 3/5), ({1,3}, 3/5), ({2,3}, 3/5)]
  ∧ (finalState (aprioriQ scenarioInit)).map (fun s => pyFind s.supp_dict {1,2,3})
      = some none
  ∧ (finalState (aprioriQ scenarioInit)).map (fun s => s.rule_list)
      = some [({2}, {1}, 3/4), ({1}, {2}, 3/4), ({3}, {1}, 3/4),
              ({1}, {3}, 3/4), ({3}, {2}, 3/4), ({2}, {3}, 3/4)]
  ∧ roundDouble ((roundDouble (3/5)) / (roundDouble (4/5))) < 3/4
  ∧ (finalState (aprioriF (mkApriori scenarioBaskets (roundDouble (3/5)) (roundDouble (3/4))))).map
        (fun s => s.freq_list)
      = some [[{1}, {2}, {3}], [{1,2}, {1,3}, {2,3}]]
  ∧ rulesOf (aprioriF (mkApriori scenarioBaskets (roundDouble (3/5)) (roundDouble (3/4)))) = [] := by
  exact ⟨by with_unfolding_all rfl, by with_unfolding_all rfl, by with_unfolding_all rfl,
    by with_unfolding_all decide, by with_unfolding_all rfl, by with_unfolding_all rfl⟩

/-- C9: consequence candidates at levels `k > 0` are accumulated in a list
without deduplication, so on the single basket `{1,2,3,4}` (thresholds 1/2)
the same rule triple `{4} → {1,2,3}` with confidence 1 is appended three
times — once for each pair of two-element subsets of `{1,2,3}` whose union
is `{1,2,3}`. -/
theorem c9_duplicate_rules :
    1 < (rulesOf (aprioriQ (mkApriori [{1,2,3,4}] (1/2) (1/2)))).count ({4}, {1,2,3}, (1 : ℚ))
  ∧ (rulesOf (aprioriQ (mkApriori [{1,2,3,4}] (1/2) (1/2)))).count ({4}, {1,2,3}, (1 : ℚ)) = 3 := by
  exact ⟨by with_unfolding_all decide, by with_unfolding_all decide⟩

/-- C5: candidate generation at `k = 0` returns exactly the distinct
singleton itemsets occurring in any basket (and an empty result when there
are no baskets); at `k > 0` it returns exactly the unions of two
itemsets at distinct positions of the size-`k` frequent level whose union
has size `k + 1`, duplicates collapsed (and an empty result when that
level is empty). -/
theorem c5_candidate_generation (st : Apriori) (k : ℕ) :
    (∀ c : Itemset, c ∈ candsOf st 0 ↔ ∃ b ∈ st.baskets, ∃ x ∈ b, c = {x})
  ∧ (0 < k → ∀ c : Itemset,
      c ∈ candsOf st k ↔ ∃ (i j : ℕ) (hi : i < (st.freq_list.getD (k - 1) []).length)
        (hj : j < (st.freq_list.getD (k - 1) []).length), i < j
        ∧ c = (st.freq_list.getD (k - 1) []).get ⟨i, hi⟩ ∪ (st.freq_list.getD (k - 1) []).get ⟨j, hj⟩
        ∧ c.card = k + 1)
  ∧ (candsOf st k).Nodup
  ∧ (0 < k → st.freq_list.getD (k - 1) [] = [] → candsOf st k = [])
  ∧ (st.baskets = [] → candsOf st 0 = []) := by
  refine ⟨fun c => mem_candsOf_zero, fun hk c => ?_, nodup_candsOf st k,
    fun hk h => candsOf_pos_nil hk h, fun h => ?_⟩
  · rw [mem_candsOf_pos hk]
    constructor
    · rintro ⟨p, hp, hcard, rfl⟩
      obtain ⟨i, j, hi, hj, hij, rfl⟩ := mem_pairsLt.mp hp
      exact ⟨i, j, hi, hj, hij, rfl, hcard⟩
    · rintro ⟨i, j, hi, hj, hij, rfl, hcard⟩
      exact ⟨_, mem_pairsLt.mpr ⟨i, j, hi, hj, hij, rfl⟩, hcard, rfl⟩
  · unfold candsOf singletonSeq
    rw [if_pos rfl, h]
    rfl

/-- Witness for the candidate-generation theorem: on a frequent level
`[{1}, {2}]` the size-2 candidate `{1, 2}` is generated. -/
theorem c5_candidate_generation_witness : ({1, 2} : Itemset) ∈ candsOf c5St 1 := by
  have h := (c5_candidate_generation c5St 1).2.1 (by decide) {1, 2}
  refine h.mpr ⟨0, 1, by decide, by decide, by decide, ?_, by decide⟩
  with_unfolding_all decide

/-- C3: the frequent-itemset filter keeps exactly the candidates whose
support ratio (baskets containing the candidate, divided by the basket
count) is at least `min_supp` — the boundary is inclusive — and records
exactly that ratio in `supp_dict` for each kept candidate, in order. -/
theorem c3_frequent_filter (st : Apriori) (k : ℕ) (st2 : Apriori)
    (hnb : st.n_baskets = st.baskets.length) (hne : st.baskets ≠ [])
    (h : gen_freqs id st k = .ok st2) :
    (∀ c : Itemset,
      c ∈ (st.cand_list.getD (k - 1) []).filter
        (fun c => st.min_supp ≤ ((st.baskets.countP (fun b => c ⊆ b) : ℚ) / (st.baskets.length : ℚ)))
      ↔ c ∈ st.cand_list.getD (k - 1) []
        ∧ st.min_supp ≤ ((st.baskets.countP (fun b => c ⊆ b) : ℚ) / (st.baskets.length : ℚ)))
  ∧ st2.supp_dict = st.supp_dict
      ++ ((st.cand_list.getD (k - 1) []).filter
        (fun c => st.min_supp ≤ ((st.baskets.countP (fun b => c ⊆ b) : ℚ) / (st.baskets.length : ℚ)))).map
        (fun c => (c, ((st.baskets.countP (fun b => c ⊆ b) : ℚ) / (st.baskets.length : ℚ))))
  ∧ st2.freq_list = (if ((st.cand_list.getD (k - 1) []).filter
        (fun c => st.min_supp ≤ ((st.baskets.countP (fun b => c ⊆ b) : ℚ) / (st.baskets.length : ℚ)))).isEmpty
      then st.freq_list
      else st.freq_list ++ [(st.cand_list.getD (k - 1) []).filter
        (fun c => st.min_supp ≤ ((st.baskets.countP (fun b => c ⊆ b) : ℚ) / (st.baskets.length : ℚ)))]) := by
  have hratio : ∀ c : Itemset,
      ((st.baskets.countP (fun b => c ⊆ b) : ℚ) / (st.baskets.length : ℚ)) = suppQ st c := by
    intro c
    unfold suppQ countOf
    rw [hnb]
  have hn0 : ¬ (st.n_baskets = 0 ∧ ¬ (st.cand_list.getD (k - 1) []).isEmpty) := by
    rintro ⟨h0, -⟩
    rw [hnb, List.length_eq_zero] at h0
    exact hne h0
  unfold gen_freqs at h
  rw [if_neg hn0] at h
  cases h
  refine ⟨fun c => by rw [List.mem_filter]; simp, ?_, ?_⟩
  · simp only [hratio, id]
  · simp only [hratio, id]

/-- Witness for the filter theorem: in `c3St` the candidate `{1}` (support
`2/2 = 1 ≥ 1/2`) is kept, `{2}` (support `0 < 1/2`) is not, and the kept
support is recorded. -/
theorem c3_frequent_filter_witness :
    (({1} : Itemset) ∈ (c3St.cand_list.getD 0 []).filter
        (fun c => c3St.min_supp ≤ ((c3St.baskets.countP (fun b => c ⊆ b) : ℚ) / (c3St.baskets.length : ℚ)))
      ↔ ({1} : Itemset) ∈ c3St.cand_list.getD 0 []
        ∧ c3St.min_supp ≤ ((c3St.baskets.countP (fun b => ({1} : Itemset) ⊆ b) : ℚ) / (c3St.baskets.length : ℚ)))
  ∧ c3St2.supp_dict = c3St.supp_dict
      ++ ((c3St.cand_list.getD 0 []).filter
        (fun c => c3St.min_supp ≤ ((c3St.baskets.countP (fun b => c ⊆ b) : ℚ) / (c3St.baskets.length : ℚ)))).map
        (fun c => (c, ((c3St.baskets.countP (fun b => c ⊆ b) : ℚ) / (c3St.baskets.length : ℚ)))) := by
  have h := c3_frequent_filter c3St 1 c3St2 rfl (by decide) (by with_unfolding_all rfl)
  exact ⟨h.1 {1}, h.2.1⟩

/-! ## Level indexing and congruence helpers -/

theorem getD_append_lt {α : Type} (l1 l2 : List (List α)) (i : ℕ) (h : i < l1.length) :
    (l1 ++ l2).getD i [] = l1.getD i [] := by
  rw [List.getD_eq_getElem?_getD, List.getD_eq_getElem?_getD, List.getElem?_append, if_pos h]

theorem getD_append_len {α : Type} (l1 : List (List α)) (x : List α) :
    (l1 ++ [x]).getD l1.length [] = x := by
  rw [List.getD_eq_getElem?_getD, List.getElem?_append, if_neg (lt_irrefl _)]
  simp

theorem getD_of_le {α : Type} (l : List (List α)) (i : ℕ) (h : l.length ≤ i) :
    l.getD i [] = [] := by
  rw [List.getD_eq_getElem?_getD, List.getElem?_eq_none h]
  rfl

theorem itemsUniv_eq {st st2 : Apriori} (h : st2.baskets = st.baskets) :
    itemsUniv st2 = itemsUniv st := by
  unfold itemsUniv
  rw [h]

theorem countOf_eq {st st2 : Apriori} (h : st2.baskets = st.baskets) (c : Itemset) :
    countOf st2 c = countOf st c := by
  unfold countOf
  rw [h]

theorem suppQ_eq {st st2 : Apriori} (hb : st2.baskets = st.baskets)
    (hn : st2.n_baskets = st.n_baskets) (c : Itemset) : suppQ st2 c = suppQ st c := by
  unfold suppQ
  rw [countOf_eq hb, hn]

theorem card_of_mem_candsOf {st : Apriori} {k : ℕ} {c : Itemset}
    (h : c ∈ candsOf st k) : c.card = k + 1 := by
  rcases Nat.eq_zero_or_pos k with rfl | hk
  · obtain ⟨b, hb, x, hx, rfl⟩ := mem_candsOf_zero.mp h
    simp
  · obtain ⟨p, hp, hcard, rfl⟩ := (mem_candsOf_pos hk).mp h
    exact hcard

theorem sub_of_mem_candsOf {rnd : ℚ → ℚ} {st : Apriori} {k : ℕ} {c : Itemset}
    (hInv : Phase1Inv rnd st k) (h : c ∈ candsOf st k) : c ⊆ itemsUniv st := by
  rcases Nat.eq_zero_or_pos k with rfl | hk
  · obtain ⟨b, hb, x, hx, rfl⟩ := mem_candsOf_zero.mp h
    intro y hy
    rw [Finset.mem_singleton] at hy
    subst hy
    exact mem_itemsUniv.mpr ⟨b, hb, hx⟩
  · obtain ⟨p, hp, hcard, rfl⟩ := (mem_candsOf_pos hk).mp h
    obtain ⟨i, j, hi, hj, hij, rfl⟩ := mem_pairsLt.mp hp
    have hlk : k - 1 < k := by omega
    have hmem1 : (st.freq_list.getD (k - 1) []).get ⟨i, hi⟩ ∈ freqAt st (k - 1) :=
      List.get_mem _ _ _
    have hmem2 : (st.freq_list.getD (k - 1) []).get ⟨j, hj⟩ ∈ freqAt st (k - 1) :=
      List.get_mem _ _ _
    rw [hInv.freq_eq (k - 1) hlk] at hmem1 hmem2
    exact Finset.union_subset
      (hInv.cand_sub (k - 1) _ (List.mem_of_mem_filter hmem1))
      (hInv.cand_sub (k - 1) _ (List.mem_of_mem_filter hmem2))

/-- Description of one successful round of the level-wise loop: the effect
of `gen_cands` (appending a non-empty candidate level) followed by a normal
return of `gen_freqs`. -/
theorem phase1_round {rnd : ℚ → ℚ} {st st2 : Apriori} {k : ℕ}
    (hclen : st.cand_list.length = k)
    (hcands : candsOf st k ≠ [])
    (h : gen_freqs rnd (gen_cands st k) (k + 1) = .ok st2) :
    st2.baskets = st.baskets ∧ st2.n_baskets = st.n_baskets
    ∧ st2.min_supp = st.min_supp ∧ st2.min_conf = st.min_conf
    ∧ st2.conseq_dict = st.conseq_dict ∧ st2.rule_list = st.rule_list
    ∧ st2.cand_list = st.cand_list ++ [candsOf st k]
    ∧ st2.supp_dict = st.supp_dict
        ++ ((candsOf st k).filter (fun c => st.min_supp ≤ rnd (suppQ st c))).map
             (fun c => (c, rnd (suppQ st c)))
    ∧ st2.freq_list
        = (if ((candsOf st k).filter (fun c => st.min_supp ≤ rnd (suppQ st c))).isEmpty
           then st.freq_list
           else st.freq_list
             ++ [(candsOf st k).filter (fun c => st.min_supp ≤ rnd (suppQ st c))]) := by
  have hne : ¬ ((candsOf st k).isEmpty = true) := by
    rw [List.isEmpty_iff]
    exact hcands
  have hlet : gen_cands st k = { st with cand_list := st.cand_list ++ [candsOf st k] } := by
    unfold gen_cands
    rw [if_neg hne]
  rw [hlet] at h
  have hgetD : (st.cand_list ++ [candsOf st k]).getD (k + 1 - 1) [] = candsOf st k := by
    rw [Nat.add_sub_cancel]
    have h0 := getD_append_len st.cand_list (candsOf st k)
    rwa [hclen] at h0
  have hsupp : ∀ c : Itemset,
      suppQ { st with cand_list := st.cand_list ++ [candsOf st k] } c = suppQ st c :=
    suppQ_eq rfl rfl
  simp only [gen_freqs, hgetD, hsupp] at h
  by_cases hz : st.n_baskets = 0 ∧ ¬ ((candsOf st k).isEmpty = true)
  · rw [if_pos hz] at h
    exact absurd h (by simp)
  · rw [if_neg hz] at h
    injection h with h2
    subst h2
    refine ⟨rfl, rfl, rfl, rfl, rfl, rfl, rfl, rfl, ?_⟩
    by_cases he : ((candsOf st k).filter (fun c => st.min_supp ≤ rnd (suppQ st c))).isEmpty
    · rw [if_pos he]
    · rw [if_neg he]

theorem phase1Post_of_inv {rnd : ℚ → ℚ} {st : Apriori} {k : ℕ} (h : Phase1Inv rnd st k) :
    Phase1Post rnd st := by
  refine ⟨h.nb, ?_, ?_, ?_, h.cand_nodup, h.cand_card, h.cand_sub, ?_, ?_, ?_, ?_, ?_⟩
  · rw [h.clen, h.flen]
  · rw [h.clen, h.flen]
    omega
  · rw [h.clen]
    exact h.cand_ne
  · rw [h.clen]
    exact h.cand_zero
  · rw [h.clen]
    exact h.cand_succ
  · rw [h.flen]
    exact h.freq_eq
  · rw [h.flen]
    exact h.supp_eq
  · rw [h.flen]
    exact h.freq_ne

theorem phase1_round_inv {rnd : ℚ → ℚ} {st st2 : Apriori} {k : ℕ}
    (hInv : Phase1Inv rnd st k)
    (hcands : candsOf st k ≠ [])
    (h : gen_freqs rnd (gen_cands st k) (k + 1) = .ok st2) :
    ((candsOf st k).filter (fun c => st.min_supp ≤ rnd (suppQ st c)) = []
      → Phase1Post rnd st2)
    ∧ ((candsOf st k).filter (fun c => st.min_supp ≤ rnd (suppQ st c)) ≠ []
      → Phase1Inv rnd st2 (k + 1)) := by
  obtain ⟨hb, hn, hms, hmc, hcd, hrl, hcl, hsd, hfl⟩ := phase1_round hInv.clen hcands h
  have hsupp2 : ∀ c, suppQ st2 c = suppQ st c := suppQ_eq hb hn
  have hnb2 : st2.n_baskets = st2.baskets.length := by
    rw [hn, hb]
    exact hInv.nb
  have hcandAt_lt : ∀ l, l < k → candAt st2 l = candAt st l := by
    intro l hl
    unfold candAt
    rw [hcl]
    exact getD_append_lt _ _ _ (by rw [hInv.clen]; exact hl)
  have hcandAt_k : candAt st2 k = candsOf st k := by
    unfold candAt
    rw [hcl]
    have h0 := getD_append_len st.cand_list (candsOf st k)
    rwa [hInv.clen] at h0
  have hcandAt_gt : ∀ l, k < l → candAt st2 l = [] := by
    intro l hl
    unfold candAt
    rw [hcl]
    refine getD_of_le _ _ ?_
    rw [List.length_append, hInv.clen]
    simpa using hl
  have hclen2 : st2.cand_list.length = k + 1 := by
    rw [hcl, List.length_append, hInv.clen]
    rfl
  have hfreqAt_lt : ∀ l, l < k → freqAt st2 l = freqAt st l := by
    intro l hl
    unfold freqAt
    rw [hfl]
    by_cases he : ((candsOf st k).filter (fun c => st.min_supp ≤ rnd (suppQ st c))).isEmpty
    · rw [if_pos he]
    · rw [if_neg he]
      exact getD_append_lt _ _ _ (by rw [hInv.flen]; exact hl)
  have hfilter : ∀ L : List Itemset,
      L.filter (fun c => st2.min_supp ≤ rnd (suppQ st2 c))
        = L.filter (fun c => st.min_supp ≤ rnd (suppQ st c)) := by
    intro L
    apply List.filter_congr
    intro c _
    rw [hms, hsupp2]
  have hvalmap : ∀ L : List Itemset,
      L.map (fun c => (c, rnd (suppQ st2 c))) = L.map (fun c => (c, rnd (suppQ st c))) := by
    intro L
    apply List.map_congr_left
    intro c _
    rw [hsupp2]
  have hcand_ne : ∀ l, l < k + 1 → candAt st2 l ≠ [] := by
    intro l hl
    rcases Nat.lt_or_eq_of_le (Nat.lt_succ_iff.mp hl) with hlt | rfl
    · rw [hcandAt_lt l hlt]
      exact hInv.cand_ne l hlt
    · rw [hcandAt_k]
      exact hcands
  have hcand_nodup : ∀ l, (candAt st2 l).Nodup := by
    intro l
    rcases Nat.lt_trichotomy l k with hl | rfl | hl
    · rw [hcandAt_lt l hl]
      exact hInv.cand_nodup l
    · rw [hcandAt_k]
      exact nodup_candsOf st l
    · rw [hcandAt_gt l hl]
      exact List.nodup_nil
  have hcand_card : ∀ l, ∀ c ∈ candAt st2 l, c.card = l + 1 := by
    intro l c hc
    rcases Nat.lt_trichotomy l k with hl | rfl | hl
    · rw [hcandAt_lt l hl] at hc
      exact hInv.cand_card l c hc
    · rw [hcandAt_k] at hc
      exact card_of_mem_candsOf hc
    · rw [hcandAt_gt l hl] at hc
      exact absurd hc (List.not_mem_nil c)
  have hcand_sub : ∀ l, ∀ c ∈ candAt st2 l, c ⊆ itemsUniv st2 := by
    intro l c hc
    rw [itemsUniv_eq hb]
    rcases Nat.lt_trichotomy l k with hl | rfl | hl
    · rw [hcandAt_lt l hl] at hc
      exact hInv.cand_sub l c hc
    · rw [hcandAt_k] at hc
      exact sub_of_mem_candsOf hInv hc
    · rw [hcandAt_gt l hl] at hc
      exact absurd hc (List.not_mem_nil c)
  have hcand_zero : ∀ c : Itemset,
      (c ∈ candAt st2 0 ↔ ∃ b ∈ st2.baskets, ∃ x ∈ b, c = {x}) := by
    intro c
    rw [hb]
    rcases Nat.eq_zero_or_pos k with rfl | hk
    · rw [hcandAt_k]
      exact mem_candsOf_zero
    · rw [hcandAt_lt 0 hk]
      exact hInv.cand_zero hk c
  have hcand_succ : ∀ l, l + 1 < k + 1 → ∀ c : Itemset,
      (c ∈ candAt st2 (l + 1) ↔
        ∃ p ∈ pairsLt (freqAt st2 l), (p.1 ∪ p.2).card = l + 2 ∧ c = p.1 ∪ p.2) := by
    intro l hl c
    have hlk : l + 1 ≤ k := Nat.lt_succ_iff.mp hl
    rcases Nat.lt_or_eq_of_le hlk with hlt | heq
    · rw [hcandAt_lt _ hlt, hfreqAt_lt l (by omega)]
      exact hInv.cand_succ l hlt c
    · subst heq
      rw [hcandAt_k, hfreqAt_lt l (by omega)]
      have hmem := @mem_candsOf_pos st (l + 1) (by omega) c
      rw [hmem]
      unfold freqAt
      simp only [Nat.add_sub_cancel]
  have hfreq_eq_lt : ∀ l, l < k →
      freqAt st2 l = (candAt st2 l).filter (fun c => st2.min_supp ≤ rnd (suppQ st2 c)) := by
    intro l hl
    rw [hfreqAt_lt l hl, hcandAt_lt l hl, hfilter]
    exact hInv.freq_eq l hl
  refine ⟨fun hFe => ?_, fun hFne => ?_⟩
  · -- the filter is empty: the loop will exit; `Phase1Post` with one extra candidate level
    have hflE : st2.freq_list = st.freq_list := by
      rw [hfl, if_pos (by rwa [List.isEmpty_iff])]
    have hfreqAt : ∀ l, freqAt st2 l = freqAt st l := by
      intro l
      unfold freqAt
      rw [hflE]
    have hflen2 : st2.freq_list.length = k := by
      rw [hflE, hInv.flen]
    refine ⟨hnb2, ?_, ?_, ?_, hcand_nodup, hcand_card, hcand_sub, ?_, ?_, ?_, ?_, ?_⟩
    · rw [hclen2, hflen2]
      omega
    · rw [hclen2, hflen2]
    · rw [hclen2]
      exact hcand_ne
    · intro _
      exact hcand_zero
    · rw [hclen2]
      exact hcand_succ
    · rw [hflen2]
      exact hfreq_eq_lt
    · rw [hflen2, hsd, hFe, List.map_nil, List.append_nil, hInv.supp_eq]
      apply List.flatMap_congr
      intro l hl
      rw [List.mem_range] at hl
      rw [hfreqAt l, hvalmap]
    · rw [hflen2]
      intro l hl
      rw [hfreqAt l]
      exact hInv.freq_ne l hl
  · -- the filter kept something: the loop continues; `Phase1Inv` at `k + 1`
    have hflE : st2.freq_list
        = st.freq_list ++ [(candsOf st k).filter (fun c => st.min_supp ≤ rnd (suppQ st c))] := by
      rw [hfl, if_neg (by rwa [Ne, ← List.isEmpty_iff] at hFne)]
    have hfreqAt_k : freqAt st2 k
        = (candsOf st k).filter (fun c => st.min_supp ≤ rnd (suppQ st c)) := by
      unfold freqAt
      rw [hflE]
      have h0 := getD_append_len st.freq_list
        ((candsOf st k).filter (fun c => st.min_supp ≤ rnd (suppQ st c)))
      rwa [hInv.flen] at h0
    have hflen2 : st2.freq_list.length = k + 1 := by
      rw [hflE, List.length_append, hInv.flen]
      rfl
    refine ⟨hnb2, hclen2, hflen2, hcand_ne, hcand_nodup, hcand_card, hcand_sub,
      fun _ => hcand_zero, hcand_succ, ?_, ?_, ?_⟩
    · intro l hl
      rcases Nat.lt_or_eq_of_le (Nat.lt_succ_iff.mp hl) with hlt | rfl
      · exact hfreq_eq_lt l hlt
      · rw [hfreqAt_k, hcandAt_k, hfilter]
    · rw [hsd, hInv.supp_eq, List.range_succ, List.flatMap_append, List.flatMap_singleton]
      have h1 : (List.range k).flatMap
            (fun l => (freqAt st2 l).map (fun c => (c, rnd (suppQ st2 c))))
          = (List.range k).flatMap
            (fun l => (freqAt st l).map (fun c => (c, rnd (suppQ st c)))) := by
        apply List.flatMap_congr
        intro l hl
        rw [List.mem_range] at hl
        rw [hfreqAt_lt l hl, hvalmap]
      rw [h1, hfreqAt_k, hvalmap]
    · intro l hl
      rcases Nat.lt_or_eq_of_le (Nat.lt_succ_iff.mp hl) with hlt | rfl
      · rw [hfreqAt_lt l hlt]
        exact hInv.freq_ne l hlt
      · rw [hfreqAt_k]
        exact hFne

/-- Every normal exit of the level-wise loop satisfies `Phase1Post`. -/
theorem freqPhase_post {rnd : ℚ → ℚ} :
    ∀ (fuel k : ℕ) (st st2 : Apriori), Phase1Inv rnd st k →
      freqPhase rnd fuel k st = some (.ok st2) → Phase1Post rnd st2 := by
  intro fuel
  induction fuel with
  | zero =>
      intro k st st2 _ h
      exact absurd h (by simp [freqPhase])
  | succ fuel ih =>
      intro k st st2 hInv h
      simp only [freqPhase] at h
      by_cases hc : candsOf st k = []
      · have hgc : gen_cands st k = st := by
          unfold gen_cands
          rw [if_pos (by rwa [List.isEmpty_iff])]
        rw [hgc, if_pos (by rw [hInv.clen]; omega)] at h
        injection h with h1
        injection h1 with h2
        subst h2
        exact phase1Post_of_inv hInv
      · have hgc : gen_cands st k = { st with cand_list := st.cand_list ++ [candsOf st k] } := by
          unfold gen_cands
          rw [if_neg (by rw [List.isEmpty_iff]; exact hc)]
        have hlen : (gen_cands st k).cand_list.length = k + 1 := by
          rw [hgc]
          simp [hInv.clen]
        rw [if_neg (by rw [hlen]; omega)] at h
        cases hgf : gen_freqs rnd (gen_cands st k) (k + 1) with
        | error e =>
            rw [hgf] at h
            exact absurd h (by simp)
        | ok st3 =>
            rw [hgf] at h
            have hred : (if st3.freq_list.length < k + 1 then some (Except.ok st3)
                else freqPhase rnd fuel (k + 1) st3) = some (Except.ok st2) := h
            obtain ⟨hpost, hinv2⟩ := phase1_round_inv hInv hc hgf
            obtain ⟨hb, hn, hms, hmc, hcd, hrl, hcl3, hsd, hfl⟩ := phase1_round hInv.clen hc hgf
            by_cases hlt : st3.freq_list.length < k + 1
            · rw [if_pos hlt] at hred
              injection hred with h1
              injection h1 with h2
              subst h2
              by_cases hF : (candsOf st k).filter (fun c => st.min_supp ≤ rnd (suppQ st c)) = []
              · exact hpost hF
              · exact absurd ((hinv2 hF).flen) (by omega)
            · rw [if_neg hlt] at hred
              by_cases hF : (candsOf st k).filter (fun c => st.min_supp ≤ rnd (suppQ st c)) = []
              · have hfl3 : st3.freq_list.length = k := by
                  rw [hfl, if_pos (by rwa [List.isEmpty_iff]), hInv.flen]
                omega
              · exact ih (k + 1) st3 st2 (hinv2 hF) hred

/-- The constructor state satisfies the loop invariant at `k = 0`. -/
theorem phase1Inv_init (rnd : ℚ → ℚ) (b : List Itemset) (ms mc : ℚ) :
    Phase1Inv rnd (mkApriori b ms mc) 0 := by
  refine ⟨rfl, rfl, rfl, ?_, ?_, ?_, ?_, ?_, ?_, ?_, rfl, ?_⟩
  · intro l hl
    exact absurd hl (Nat.not_lt_zero l)
  · intro l
    exact List.nodup_nil
  · intro l c hc
    exact absurd hc (List.not_mem_nil c)
  · intro l c hc
    exact absurd hc (List.not_mem_nil c)
  · intro h0
    exact absurd h0 (lt_irrefl 0)
  · intro l hl
    exact absurd hl (Nat.not_lt_zero _)
  · intro l hl
    exact absurd hl (Nat.not_lt_zero l)
  · intro l hl
    exact absurd hl (Nat.not_lt_zero l)

/-- The level-wise loop never exhausts its fuel: each continuing round has a
non-empty candidate level of strictly larger itemset size, all candidates
are subsets of the finite item universe, so the counter is bounded by the
number of distinct items. -/
theorem freqPhase_not_none {rnd : ℚ → ℚ} :
    ∀ (fuel k : ℕ) (st : Apriori), Phase1Inv rnd st k →
      (itemsUniv st).card + 1 ≤ fuel + k → freqPhase rnd fuel k st ≠ none := by
  intro fuel
  induction fuel with
  | zero =>
      intro k st hInv hfuel
      exfalso
      have hk : (itemsUniv st).card + 1 ≤ k := by simpa using hfuel
      have hk1 : 0 < k := by omega
      have hne := hInv.cand_ne (k - 1) (by omega)
      obtain ⟨c, hc⟩ := List.exists_mem_of_ne_nil _ hne
      have hcard := hInv.cand_card (k - 1) c hc
      have hsub := hInv.cand_sub (k - 1) c hc
      have hle := Finset.card_le_card hsub
      omega
  | succ fuel ih =>
      intro k st hInv hfuel
      simp only [freqPhase]
      by_cases hc : candsOf st k = []
      · have hgc : gen_cands st k = st := by
          unfold gen_cands
          rw [if_pos (by rwa [List.isEmpty_iff])]
        rw [hgc, if_pos (by rw [hInv.clen]; omega)]
        simp
      · have hgc : gen_cands st k = { st with cand_list := st.cand_list ++ [candsOf st k] } := by
          unfold gen_cands
          rw [if_neg (by rw [List.isEmpty_iff]; exact hc)]
        have hlen : (gen_cands st k).cand_list.length = k + 1 := by
          rw [hgc]
          simp [hInv.clen]
        rw [if_neg (by rw [hlen]; omega)]
        cases hgf : gen_freqs rnd (gen_cands st k) (k + 1) with
        | error e => simp
        | ok st3 =>
            show (if st3.freq_list.length < k + 1 then some (Except.ok st3)
              else freqPhase rnd fuel (k + 1) st3) ≠ none
            by_cases hlt : st3.freq_list.length < k + 1
            · rw [if_pos hlt]
              simp
            · rw [if_neg hlt]
              obtain ⟨hpost, hinv2⟩ := phase1_round_inv hInv hc hgf
              obtain ⟨hb, hn, hms, hmc, hcd, hrl, hcl3, hsd, hfl⟩ :=
                phase1_round hInv.clen hc hgf
              by_cases hF : (candsOf st k).filter (fun c => st.min_supp ≤ rnd (suppQ st c)) = []
              · have hfl3 : st3.freq_list.length = k := by
                  rw [hfl, if_pos (by rwa [List.isEmpty_iff]), hInv.flen]
                omega
              · refine ih (k + 1) st3 (hinv2 hF) ?_
                rw [itemsUniv_eq hb]
                omega

/-- C6: the full run terminates for every basket collection and thresholds:
the level-wise loop reaches its exit (modelled by the fuel bound `fuelOf`
never being exhausted, so the run is never `none`), and the per-itemset
consequence loops are structurally bounded by the itemset's level index
(`conseqLoop` recurses on `i - k`).  This holds for any rounding semantics
`rnd`. -/
theorem c6_termination (rnd : ℚ → ℚ) (baskets : List Itemset) (ms mc : ℚ) :
    apriori rnd (mkApriori baskets ms mc) ≠ none := by
  unfold apriori
  cases hp : freqPhase rnd (fuelOf (mkApriori baskets ms mc)) 0 (mkApriori baskets ms mc) with
  | none =>
      exact absurd hp (freqPhase_not_none _ 0 _ (phase1Inv_init rnd baskets ms mc)
        (by unfold fuelOf; omega))
  | some r =>
      cases r <;> simp

theorem pyFind_of_mem_of_unique {α : Type} {d : List (Itemset × α)} {key : Itemset} {x : α}
    (hmem : key ∈ keysOf d) (huniq : ∀ v, (key, v) ∈ d → v = x) :
    pyFind d key = some x := by
  obtain ⟨v, hv⟩ := pyFind_isSome hmem
  rw [hv, huniq v (pyFind_mem hv)]

theorem post_freq_mem_cand {rnd : ℚ → ℚ} {st : Apriori} (h : Phase1Post rnd st) {l : ℕ}
    {c : Itemset} (hl : l < st.freq_list.length) (hc : c ∈ freqAt st l) :
    c ∈ candAt st l := by
  rw [h.freq_eq l hl] at hc
  exact List.mem_of_mem_filter hc

theorem post_freq_supp {rnd : ℚ → ℚ} {st : Apriori} (h : Phase1Post rnd st) {l : ℕ}
    {c : Itemset} (hl : l < st.freq_list.length) (hc : c ∈ freqAt st l) :
    st.min_supp ≤ rnd (suppQ st c) := by
  rw [h.freq_eq l hl] at hc
  exact of_decide_eq_true (List.mem_filter.mp hc).2

theorem post_freq_card {rnd : ℚ → ℚ} {st : Apriori} (h : Phase1Post rnd st) {l : ℕ}
    {c : Itemset} (hl : l < st.freq_list.length) (hc : c ∈ freqAt st l) :
    c.card = l + 1 :=
  h.cand_card l c (post_freq_mem_cand h hl hc)

theorem post_supp_mem {rnd : ℚ → ℚ} {st : Apriori} (h : Phase1Post rnd st) {c : Itemset}
    {v : ℚ} (hm : (c, v) ∈ st.supp_dict) :
    v = rnd (suppQ st c) ∧ ∃ l, l < st.freq_list.length ∧ c ∈ freqAt st l := by
  rw [h.supp_eq] at hm
  obtain ⟨l, hl, hmem⟩ := List.mem_flatMap.mp hm
  rw [List.mem_range] at hl
  obtain ⟨c2, hc2, heq⟩ := List.mem_map.mp hmem
  have h1 : c2 = c := congrArg Prod.fst heq
  have h2 : rnd (suppQ st c2) = v := congrArg Prod.snd heq
  subst h1
  exact ⟨h2.symm, l, hl, hc2⟩

theorem post_supp_binding {rnd : ℚ → ℚ} {st : Apriori} (h : Phase1Post rnd st) {c : Itemset}
    {l : ℕ} (hl : l < st.freq_list.length) (hc : c ∈ freqAt st l) :
    (c, rnd (suppQ st c)) ∈ st.supp_dict := by
  rw [h.supp_eq]
  exact List.mem_flatMap.mpr ⟨l, List.mem_range.mpr hl, List.mem_map.mpr ⟨c, hc, rfl⟩⟩

theorem post_supp_find {rnd : ℚ → ℚ} {st : Apriori} (h : Phase1Post rnd st) {c : Itemset}
    {l : ℕ} (hl : l < st.freq_list.length) (hc : c ∈ freqAt st l) :
    pyFind st.supp_dict c = some (rnd (suppQ st c)) := by
  refine pyFind_of_mem_of_unique ?_ ?_
  · exact List.mem_map.mpr ⟨(c, rnd (suppQ st c)), post_supp_binding h hl hc, rfl⟩
  · intro v hv
    exact (post_supp_mem h hv).1

theorem mem_flatten_freq {st : Apriori} {F : Itemset} :
    F ∈ st.freq_list.flatten ↔ ∃ l, l < st.freq_list.length ∧ F ∈ freqAt st l := by
  rw [List.mem_flatten]
  constructor
  · rintro ⟨L, hL, hF⟩
    obtain ⟨⟨l, hl⟩, rfl⟩ := List.mem_iff_get.mp hL
    refine ⟨l, hl, ?_⟩
    unfold freqAt
    rw [List.getD_eq_getElem?_getD, List.getElem?_eq_getElem hl]
    simpa using hF
  · rintro ⟨l, hl, hF⟩
    refine ⟨freqAt st l, ?_, hF⟩
    unfold freqAt
    rw [List.getD_eq_getElem?_getD, List.getElem?_eq_getElem hl]
    exact List.getElem_mem hl

/-- Downward closure of the frequent levels under the exact-arithmetic
semantics: every non-empty subset `S` of a recorded frequent itemset is
itself recorded, at the level of its size.  (The induction rebuilds `S` as
the union of two of its size-one-smaller subsets, which are frequent by the
induction hypothesis and join into a candidate in `gen_cands`.) -/
theorem post_closure {st : Apriori} (h : Phase1Post id st) :
    ∀ m : ℕ, ∀ S F : Itemset, ∀ l, l < st.freq_list.length → F ∈ freqAt st l →
      S ⊆ F → S.card = m + 1 → S ∈ freqAt st m := by
  intro m
  induction m using Nat.strong_induction_on with
  | _ m ih =>
      intro S F l hl hF hSF hcard
      have hFcard : F.card = l + 1 := post_freq_card h hl hF
      have hSle : S.card ≤ F.card := Finset.card_le_card hSF
      have hml : m ≤ l := by omega
      rcases Nat.eq_or_lt_of_le hml with rfl | hmlt
      · have hEq : S = F := Finset.eq_of_subset_of_card_le hSF (by omega)
        rwa [hEq]
      · have hmlen : m < st.freq_list.length := lt_trans hmlt hl
        have hsuppF : st.min_supp ≤ suppQ st F := by
          have h1 := post_freq_supp h hl hF
          simpa using h1
        have hsupp : st.min_supp ≤ suppQ st S :=
          le_trans hsuppF (suppQ_anti hSF)
        have hclen_pos : 0 < st.cand_list.length :=
          lt_of_le_of_lt (Nat.zero_le l) (lt_of_lt_of_le hl h.len_lower)
        have hcand : S ∈ candAt st m := by
          rcases Nat.eq_zero_or_pos m with rfl | hm
          · obtain ⟨x, rfl⟩ := Finset.card_eq_one.mp hcard
            rw [h.cand_zero hclen_pos]
            have hxF : x ∈ F := hSF (Finset.mem_singleton_self x)
            have hFU : F ⊆ itemsUniv st :=
              h.cand_sub l F (post_freq_mem_cand h hl hF)
            obtain ⟨b, hb, hxb⟩ := mem_itemsUniv.mp (hFU hxF)
            exact ⟨b, hb, x, hxb, rfl⟩
          · have hm1 : m - 1 + 1 = m := Nat.succ_pred_eq_of_pos hm
            have h2 : 1 < S.card := by omega
            obtain ⟨x, y, hx, hy, hxy⟩ := Finset.one_lt_card_iff.mp h2
            have hS1card : (S.erase x).card = m := by
              rw [Finset.card_erase_of_mem hx, hcard]
              omega
            have hS2card : (S.erase y).card = m := by
              rw [Finset.card_erase_of_mem hy, hcard]
              omega
            have hS1 : S.erase x ∈ freqAt st (m - 1) := by
              refine ih (m - 1) (by omega) (S.erase x) F l hl hF
                (Finset.Subset.trans (Finset.erase_subset x S) hSF) ?_
              rw [hS1card, hm1]
            have hS2 : S.erase y ∈ freqAt st (m - 1) := by
              refine ih (m - 1) (by omega) (S.erase y) F l hl hF
                (Finset.Subset.trans (Finset.erase_subset y S) hSF) ?_
              rw [hS2card, hm1]
            have hS1ne2 : S.erase x ≠ S.erase y := by
              intro heq
              have hx2 : x ∈ S.erase y := Finset.mem_erase.mpr ⟨hxy, hx⟩
              rw [← heq] at hx2
              exact (Finset.not_mem_erase x S) hx2
            have hunion : S.erase x ∪ S.erase y = S := by
              apply Finset.Subset.antisymm
              · exact Finset.union_subset (Finset.erase_subset x S) (Finset.erase_subset y S)
              · intro z hz
                by_cases hzx : z = x
                · subst hzx
                  exact Finset.mem_union_right _ (Finset.mem_erase.mpr ⟨hxy, hz⟩)
                · exact Finset.mem_union_left _ (Finset.mem_erase.mpr ⟨hzx, hz⟩)
            have hmclen : m - 1 + 1 < st.cand_list.length := by
              rw [hm1]
              exact lt_of_lt_of_le hmlen h.len_lower
            have hgoal : S ∈ candAt st (m - 1 + 1) := by
              rw [h.cand_succ (m - 1) hmclen S]
              rcases pairsLt_of_mem_ne hS1 hS2 hS1ne2 with hp | hp
              · refine ⟨(S.erase x, S.erase y), hp, ?_, ?_⟩
                · rw [hunion, hcard]
                  omega
                · rw [hunion]
              · refine ⟨(S.erase y, S.erase x), hp, ?_, ?_⟩
                · rw [Finset.union_comm, hunion, hcard]
                  omega
                · rw [Finset.union_comm, hunion]
            rwa [hm1] at hgoal
        rw [h.freq_eq m hmlen, List.mem_filter]
        refine ⟨hcand, decide_eq_true ?_⟩
        simpa using hsupp

/-! ## The rule-derivation phase: frame and soundness lemmas -/

theorem frame2_refl (st : Apriori) : Frame2 st st :=
  ⟨rfl, rfl, rfl, rfl, rfl, rfl, rfl⟩

theorem frame2_trans {st1 st2 st3 : Apriori} (h1 : Frame2 st1 st2) (h2 : Frame2 st2 st3) :
    Frame2 st1 st3 := by
  obtain ⟨a1, a2, a3, a4, a5, a6, a7⟩ := h1
  obtain ⟨b1, b2, b3, b4, b5, b6, b7⟩ := h2
  exact ⟨b1.trans a1, b2.trans a2, b3.trans a3, b4.trans a4, b5.trans a5,
    b6.trans a6, b7.trans a7⟩

theorem candAt_frame {st st2 : Apriori} (h : Frame2 st st2) (l : ℕ) :
    candAt st2 l = candAt st l := by
  unfold candAt
  rw [h.2.2.2.2.1]

theorem freqAt_frame {st st2 : Apriori} (h : Frame2 st st2) (l : ℕ) :
    freqAt st2 l = freqAt st l := by
  unfold freqAt
  rw [h.2.2.2.2.2.1]

theorem suppQ_frame {st st2 : Apriori} (h : Frame2 st st2) (c : Itemset) :
    suppQ st2 c = suppQ st c :=
  suppQ_eq h.1 h.2.1 c

theorem phase1Post_frame {rnd : ℚ → ℚ} {st st2 : Apriori} (hf : Frame2 st st2)
    (h : Phase1Post rnd st) : Phase1Post rnd st2 := by
  obtain ⟨hb, hn, hms, hmc, hcl, hfl, hsd⟩ := hf
  refine ⟨?_, ?_, ?_, ?_, ?_, ?_, ?_, ?_, ?_, ?_, ?_, ?_⟩
  · rw [hn, hb]
    exact h.nb
  · rw [hcl, hfl]
    exact h.len_lower
  · rw [hcl, hfl]
    exact h.len_upper
  · intro l hl
    rw [hcl] at hl
    unfold candAt
    rw [hcl]
    exact h.cand_ne l hl
  · intro l
    unfold candAt
    rw [hcl]
    exact h.cand_nodup l
  · intro l c hc
    unfold candAt at hc
    rw [hcl] at hc
    exact h.cand_card l c hc
  · intro l c hc
    unfold candAt at hc
    rw [hcl] at hc
    rw [itemsUniv_eq hb]
    exact h.cand_sub l c hc
  · intro hpos c
    rw [hcl] at hpos
    unfold candAt
    rw [hcl, hb]
    exact h.cand_zero hpos c
  · intro l hl c
    rw [hcl] at hl
    unfold candAt freqAt
    rw [hcl, hfl]
    exact h.cand_succ l hl c
  · intro l hl
    rw [hfl] at hl
    unfold freqAt candAt
    rw [hfl, hcl, hms]
    have hfun : (fun c => decide (st.min_supp ≤ rnd (suppQ st2 c)))
        = (fun c => decide (st.min_supp ≤ rnd (suppQ st c))) := by
      funext c
      rw [suppQ_frame ⟨hb, hn, hms, hmc, hcl, hfl, hsd⟩ c]
    rw [hfun]
    exact h.freq_eq l hl
  · rw [hsd, hfl]
    unfold freqAt
    rw [h.supp_eq]
    apply List.flatMap_congr
    intro l hl
    rw [hfl]
    apply List.map_congr_left
    intro c hc
    rw [suppQ_frame ⟨hb, hn, hms, hmc, hcl, hfl, hsd⟩ c]
  · intro l hl
    rw [hfl] at hl
    unfold freqAt
    rw [hfl]
    exact h.freq_ne l hl

theorem ruleSound_frame {st st2 : Apriori} (hf : Frame2 st st2) {r : Rule}
    (h : RuleSound st r) : RuleSound st2 r := by
  obtain ⟨hb, hn, hms, hmc, hcl, hfl, hsd⟩ := hf
  unfold RuleSound at h ⊢
  rw [hfl, hsd, hmc]
  exact h

theorem rulePat_frame {st st2 : Apriori} (hf : Frame2 st st2) {freq conseq : Itemset}
    {r : Rule} (h : RulePat st freq conseq r) : RulePat st2 freq conseq r := by
  obtain ⟨hb, hn, hms, hmc, hcl, hfl, hsd⟩ := hf
  unfold RulePat at h ⊢
  rw [hsd, hmc]
  exact h

theorem checkOK_frame {st st2 : Apriori} (hf : Frame2 st st2) {freq conseq : Itemset}
    (h : CheckOK st freq conseq) : CheckOK st2 freq conseq := by
  unfold CheckOK at h ⊢
  rw [hf.2.2.2.2.2.2]
  exact h

theorem p2ctx_frame {st st2 : Apriori} (hf : Frame2 st st2) (h : P2Ctx st) : P2Ctx st2 :=
  ⟨by rw [hf.2.2.1]; exact h.1, phase1Post_frame hf h.2⟩

/-- Inversion of a successful `check_rule` call under exact arithmetic. -/
theorem check_rule_ok_inv {st st2 : Apriori} {freq conseq : Itemset} {b : Bool}
    (h : check_rule id st freq conseq = .ok (st2, b)) :
    Frame2 st st2 ∧ st2.conseq_dict = st.conseq_dict
    ∧ ∃ sF sA : ℚ, pyFind st.supp_dict freq = some sF
      ∧ pyFind st.supp_dict (freq \ conseq) = some sA ∧ sA ≠ 0
      ∧ ((b = true ∧ st.min_conf ≤ sF / sA
            ∧ st2.rule_list = st.rule_list ++ [(freq \ conseq, conseq, sF / sA)])
        ∨ (b = false ∧ st2.rule_list = st.rule_list)) := by
  simp only [check_rule] at h
  cases hF : pyFind st.supp_dict freq with
  | none =>
      rw [hF] at h
      simp [require, bind, Except.bind] at h
  | some sF =>
      rw [hF] at h
      cases hA : pyFind st.supp_dict (freq \ conseq) with
      | none =>
          rw [hA] at h
          simp [require, bind, Except.bind] at h
      | some sA =>
          rw [hA] at h
          simp only [require, bind, Except.bind] at h
          by_cases hz : sA = 0
          · rw [if_pos hz] at h
            exact absurd h (by simp)
          · rw [if_neg hz] at h
            by_cases hc : st.min_conf ≤ id (sF / sA)
            · rw [if_pos hc] at h
              injection h with h1
              have h2 : st2 = { st with rule_list := st.rule_list ++ [(freq \ conseq, conseq, id (sF / sA))] }
                  ∧ b = true := by
                constructor
                · exact (congrArg Prod.fst h1).symm
                · exact (congrArg Prod.snd h1).symm
              obtain ⟨h2, h3⟩ := h2
              subst h2
              refine ⟨⟨rfl, rfl, rfl, rfl, rfl, rfl, rfl⟩, rfl, sF, sA, rfl, rfl, hz, ?_⟩
              left
              exact ⟨h3, by simpa using hc, by simp⟩
            · rw [if_neg hc] at h
              injection h with h1
              have h2 : st2 = st ∧ b = false := by
                constructor
                · exact (congrArg Prod.fst h1).symm
                · exact (congrArg Prod.snd h1).symm
              obtain ⟨h2, h3⟩ := h2
              subst h2
              refine ⟨frame2_refl _, rfl, sF, sA, rfl, rfl, hz, Or.inr ⟨h3, rfl⟩⟩

/-- `check_rule` returns normally whenever both lookups succeed with a
non-zero divisor. -/
theorem check_rule_exists {st : Apriori} {freq conseq : Itemset}
    (hok : CheckOK st freq conseq) :
    ∃ st2 b, check_rule id st freq conseq = .ok (st2, b) := by
  obtain ⟨sF, sA, hF, hA, hz⟩ := hok
  simp only [check_rule]
  rw [hF, hA]
  simp only [require, bind, Except.bind]
  rw [if_neg hz]
  by_cases hc : st.min_conf ≤ id (sF / sA)
  · rw [if_pos hc]
    exact ⟨_, _, rfl⟩
  · rw [if_neg hc]
    exact ⟨_, _, rfl⟩

theorem frame2_symm {st st2 : Apriori} (h : Frame2 st st2) : Frame2 st2 st :=
  ⟨h.1.symm, h.2.1.symm, h.2.2.1.symm, h.2.2.2.1.symm, h.2.2.2.2.1.symm,
    h.2.2.2.2.2.1.symm, h.2.2.2.2.2.2.symm⟩

theorem checkItems_ok_inv {freq : Itemset} :
    ∀ (items : List ℕ) (st st2 : Apriori) (conseqs : List Itemset),
      checkItems id st freq items = .ok (st2, conseqs) →
      Frame2 st st2 ∧ st2.conseq_dict = st.conseq_dict
      ∧ (∀ c ∈ conseqs, ∃ x ∈ items, c = ({x} : Itemset))
      ∧ ∃ extra, st2.rule_list = st.rule_list ++ extra
          ∧ ∀ r ∈ extra, ∃ x ∈ items, RulePat st freq ({x} : Itemset) r := by
  intro items
  induction items with
  | nil =>
      intro st st2 conseqs h
      simp only [checkItems] at h
      injection h with h1
      have h2 : st2 = st := (congrArg Prod.fst h1).symm
      have h3 : conseqs = [] := (congrArg Prod.snd h1).symm
      subst h2
      subst h3
      exact ⟨frame2_refl _, rfl, by simp, [], by simp, by simp⟩
  | cons x rest ih =>
      intro st st2 conseqs h
      simp only [checkItems] at h
      cases hcr : check_rule id st freq ({x} : Itemset) with
      | error e =>
          rw [hcr] at h
          simp [bind, Except.bind] at h
      | ok p =>
          obtain ⟨st1, b⟩ := p
          rw [hcr] at h
          simp only [bind, Except.bind] at h
          cases hci : checkItems id st1 freq rest with
          | error e =>
              rw [hci] at h
              simp at h
          | ok q =>
              obtain ⟨st2', cs⟩ := q
              rw [hci] at h
              injection h with h1
              have hst : st2 = st2' := (congrArg Prod.fst h1).symm
              have hcs : conseqs = (if b then [({x} : Itemset)] else []) ++ cs :=
                (congrArg Prod.snd h1).symm
              subst hst
              subst hcs
              obtain ⟨hf1, hcd1, sF, sA, hF, hA, hz, hbr⟩ := check_rule_ok_inv hcr
              obtain ⟨hf2, hcd2, hcsp, extra, hrl2, hpat⟩ := ih st1 st2 cs hci
              refine ⟨frame2_trans hf1 hf2, hcd2.trans hcd1, ?_, ?_⟩
              · intro c hc
                rw [List.mem_append] at hc
                rcases hc with hc | hc
                · rcases hbr with ⟨hb, _, _⟩ | ⟨hb, _⟩ <;> subst hb <;> simp at hc
                  exact ⟨x, by simp, hc⟩
                · obtain ⟨y, hy, rfl⟩ := hcsp c hc
                  exact ⟨y, List.mem_cons_of_mem x hy, rfl⟩
              · rcases hbr with ⟨hb, hconf, hrl1⟩ | ⟨hb, hrl1⟩
                · refine ⟨[(freq \ {x}, {x}, sF / sA)] ++ extra, ?_, ?_⟩
                  · rw [hrl2, hrl1, List.append_assoc]
                  · intro r hr
                    rw [List.mem_append] at hr
                    rcases hr with hr | hr
                    · rw [List.mem_singleton] at hr
                      subst hr
                      exact ⟨x, by simp, sF, sA, hF, hA, rfl, hconf⟩
                    · obtain ⟨y, hy, hrp⟩ := hpat r hr
                      exact ⟨y, List.mem_cons_of_mem x hy,
                        rulePat_frame (frame2_symm hf1) hrp⟩
                · refine ⟨extra, by rw [hrl2, hrl1], ?_⟩
                  intro r hr
                  obtain ⟨y, hy, hrp⟩ := hpat r hr
                  exact ⟨y, List.mem_cons_of_mem x hy, rulePat_frame (frame2_symm hf1) hrp⟩

theorem checkItems_exists {freq : Itemset} :
    ∀ (items : List ℕ) (st : Apriori),
      (∀ x ∈ items, CheckOK st freq ({x} : Itemset)) →
      ∃ st2 conseqs, checkItems id st freq items = .ok (st2, conseqs) := by
  intro items
  induction items with
  | nil =>
      intro st _
      exact ⟨st, [], rfl⟩
  | cons x rest ih =>
      intro st hctx
      obtain ⟨st1, b, hcr⟩ := check_rule_exists (hctx x (by simp))
      obtain ⟨hf1, -, -⟩ := check_rule_ok_inv hcr
      obtain ⟨st2, cs, hci⟩ := ih st1
        (fun y hy => checkOK_frame hf1 (hctx y (List.mem_cons_of_mem x hy)))
      refine ⟨st2, (if b then [({x} : Itemset)] else []) ++ cs, ?_⟩
      simp only [checkItems, hcr, hci, bind, Except.bind]

theorem checkPairs_ok_inv {freq : Itemset} {k : ℕ} :
    ∀ (pairs : List (Itemset × Itemset)) (st st2 : Apriori) (conseqs : List Itemset),
      checkPairs id st freq k pairs = .ok (st2, conseqs) →
      Frame2 st st2 ∧ st2.conseq_dict = st.conseq_dict
      ∧ (∀ c ∈ conseqs, ∃ p ∈ pairs, c = p.1 ∪ p.2 ∧ c.card = k + 1)
      ∧ ∃ extra, st2.rule_list = st.rule_list ++ extra
          ∧ ∀ r ∈ extra, ∃ c : Itemset, (∃ p ∈ pairs, c = p.1 ∪ p.2) ∧ c.card = k + 1
              ∧ RulePat st freq c r := by
  intro pairs
  induction pairs with
  | nil =>
      intro st st2 conseqs h
      simp only [checkPairs] at h
      injection h with h1
      have h2 : st2 = st := (congrArg Prod.fst h1).symm
      have h3 : conseqs = [] := (congrArg Prod.snd h1).symm
      subst h2
      subst h3
      exact ⟨frame2_refl _, rfl, by simp, [], by simp, by simp⟩
  | cons p rest ih =>
      intro st st2 conseqs h
      simp only [checkPairs] at h
      by_cases hcard : (p.1 ∪ p.2).card = k + 1
      · rw [if_pos hcard] at h
        cases hcr : check_rule id st freq (p.1 ∪ p.2) with
        | error e =>
            rw [hcr] at h
            simp [bind, Except.bind] at h
        | ok q =>
            obtain ⟨st1, b⟩ := q
            rw [hcr] at h
            simp only [bind, Except.bind] at h
            cases hcp : checkPairs id st1 freq k rest with
            | error e =>
                rw [hcp] at h
                simp at h
            | ok q2 =>
                obtain ⟨st2', cs⟩ := q2
                rw [hcp] at h
                injection h with h1
                have hst : st2 = st2' := (congrArg Prod.fst h1).symm
                have hcs : conseqs = (if b then [p.1 ∪ p.2] else []) ++ cs :=
                  (congrArg Prod.snd h1).symm
                subst hst
                subst hcs
                obtain ⟨hf1, hcd1, sF, sA, hF, hA, hz, hbr⟩ := check_rule_ok_inv hcr
                obtain ⟨hf2, hcd2, hcsp, extra, hrl2, hpat⟩ := ih st1 st2 cs hcp
                refine ⟨frame2_trans hf1 hf2, hcd2.trans hcd1, ?_, ?_⟩
                · intro c hc
                  rw [List.mem_append] at hc
                  rcases hc with hc | hc
                  · rcases hbr with ⟨hb, _, _⟩ | ⟨hb, _⟩ <;> subst hb <;> simp at hc
                    exact ⟨p, by simp, hc, by rw [hc]; exact hcard⟩
                  · obtain ⟨p2, hp2, hceq, hck⟩ := hcsp c hc
                    exact ⟨p2, List.mem_cons_of_mem p hp2, hceq, hck⟩
                · rcases hbr with ⟨hb, hconf, hrl1⟩ | ⟨hb, hrl1⟩
                  · refine ⟨[(freq \ (p.1 ∪ p.2), p.1 ∪ p.2, sF / sA)] ++ extra, ?_, ?_⟩
                    · rw [hrl2, hrl1, List.append_assoc]
                    · intro r hr
                      rw [List.mem_append] at hr
                      rcases hr with hr | hr
                      · rw [List.mem_singleton] at hr
                        subst hr
                        exact ⟨p.1 ∪ p.2, ⟨p, by simp, rfl⟩, hcard,
                          sF, sA, hF, hA, rfl, hconf⟩
                      · obtain ⟨c, hcp2, hck, hrp⟩ := hpat r hr
                        obtain ⟨p2, hp2, hceq⟩ := hcp2
                        exact ⟨c, ⟨p2, List.mem_cons_of_mem p hp2, hceq⟩, hck,
                          rulePat_frame (frame2_symm hf1) hrp⟩
                  · refine ⟨extra, by rw [hrl2, hrl1], ?_⟩
                    intro r hr
                    obtain ⟨c, hcp2, hck, hrp⟩ := hpat r hr
                    obtain ⟨p2, hp2, hceq⟩ := hcp2
                    exact ⟨c, ⟨p2, List.mem_cons_of_mem p hp2, hceq⟩, hck,
                      rulePat_frame (frame2_symm hf1) hrp⟩
      · rw [if_neg hcard] at h
        obtain ⟨hf2, hcd2, hcsp, extra, hrl2, hpat⟩ := ih st st2 conseqs h
        refine ⟨hf2, hcd2, ?_, extra, hrl2, ?_⟩
        · intro c hc
          obtain ⟨p2, hp2, hceq, hck⟩ := hcsp c hc
          exact ⟨p2, List.mem_cons_of_mem p hp2, hceq, hck⟩
        · intro r hr
          obtain ⟨c, hcp2, hck, hrp⟩ := hpat r hr
          obtain ⟨p2, hp2, hceq⟩ := hcp2
          exact ⟨c, ⟨p2, List.mem_cons_of_mem p hp2, hceq⟩, hck, hrp⟩

theorem checkPairs_exists {freq : Itemset} {k : ℕ} :
    ∀ (pairs : List (Itemset × Itemset)) (st : Apriori),
      (∀ p ∈ pairs, (p.1 ∪ p.2).card = k + 1 → CheckOK st freq (p.1 ∪ p.2)) →
      ∃ st2 conseqs, checkPairs id st freq k pairs = .ok (st2, conseqs) := by
  intro pairs
  induction pairs with
  | nil =>
      intro st _
      exact ⟨st, [], rfl⟩
  | cons p rest ih =>
      intro st hctx
      by_cases hcard : (p.1 ∪ p.2).card = k + 1
      · obtain ⟨st1, b, hcr⟩ := check_rule_exists (hctx p (by simp) hcard)
        obtain ⟨hf1, -, -⟩ := check_rule_ok_inv hcr
        obtain ⟨st2, cs, hcp⟩ := ih st1
          (fun q hq hqc => checkOK_frame hf1 (hctx q (List.mem_cons_of_mem p hq) hqc))
        refine ⟨st2, (if b then [p.1 ∪ p.2] else []) ++ cs, ?_⟩
        simp only [checkPairs, hcr, hcp, bind, Except.bind, if_pos hcard]
      · obtain ⟨st2, cs, hcp⟩ := ih st
          (fun q hq hqc => hctx q (List.mem_cons_of_mem p hq) hqc)
        refine ⟨st2, cs, ?_⟩
        simp only [checkPairs, if_neg hcard]
        exact hcp

theorem ruleSound_of_pat {st : Apriori} {freq conseq : Itemset} {r : Rule}
    (hfreq : freq ∈ st.freq_list.flatten) (hsub : conseq ⊆ freq)
    (hne : conseq.Nonempty) (hlt : conseq.card < freq.card)
    (hp : RulePat st freq conseq r) : RuleSound st r := by
  obtain ⟨sF, sA, hF, hA, hr, hconf⟩ := hp
  subst hr
  have hnef : conseq ≠ freq := by
    intro heq
    rw [heq] at hlt
    exact lt_irrefl _ hlt
  have hdiff : (freq \ conseq).Nonempty := by
    rw [Finset.sdiff_nonempty]
    intro hle
    exact absurd (Finset.card_le_card hle) (by omega)
  refine ⟨freq, hfreq, hsub, hne, hnef, rfl, hdiff, Finset.sdiff_inter_self _ _, ?_,
    ⟨sF, sA, hF, hA, rfl⟩, hconf⟩
  exact Finset.sdiff_union_of_subset hsub

theorem gen_conseqs_sound {st st2 : Apriori} {freq : Itemset} {k : ℕ}
    {levels : List (List Itemset)}
    (hlv : pyFind st.conseq_dict freq = some levels)
    (hLOK : LevelsOK freq levels)
    (h : gen_conseqs id st freq k = .ok st2) :
    Frame2 st st2
    ∧ keysOf st2.conseq_dict = keysOf st.conseq_dict
    ∧ ∃ conseqs : List Itemset,
        (∀ c ∈ conseqs, c ⊆ freq ∧ c.card = k + 1)
        ∧ (conseqs = [] → st2.conseq_dict = st.conseq_dict)
        ∧ (conseqs ≠ [] → pyFind st2.conseq_dict freq = some (levels ++ [conseqs]))
        ∧ ∃ extra, st2.rule_list = st.rule_list ++ extra
            ∧ ∀ r ∈ extra, ∃ conseq : Itemset, conseq ⊆ freq ∧ conseq.Nonempty
                ∧ conseq.card = k + 1 ∧ RulePat st freq conseq r := by
  simp only [gen_conseqs] at h
  by_cases hk : k = 0
  · rw [if_pos hk] at h
    cases hci : checkItems id st freq (freq.sort (· ≤ ·)) with
    | error e =>
        rw [hci] at h
        simp [bind, Except.bind] at h
    | ok q =>
        obtain ⟨st1, cs⟩ := q
        rw [hci] at h
        simp only [bind, Except.bind] at h
        obtain ⟨hf1, hcd1, hcsp, extra, hrl1, hpat⟩ := checkItems_ok_inv _ st st1 cs hci
        have hcsub : ∀ c ∈ cs, c ⊆ freq ∧ c.card = k + 1 := by
          intro c hc
          obtain ⟨x, hx, rfl⟩ := hcsp c hc
          rw [Finset.mem_sort] at hx
          subst hk
          exact ⟨Finset.singleton_subset_iff.mpr hx, by simp⟩
        have hextra : ∀ r ∈ extra, ∃ conseq : Itemset, conseq ⊆ freq ∧ conseq.Nonempty
            ∧ conseq.card = k + 1 ∧ RulePat st freq conseq r := by
          intro r hr
          obtain ⟨x, hx, hrp⟩ := hpat r hr
          rw [Finset.mem_sort] at hx
          subst hk
          exact ⟨{x}, Finset.singleton_subset_iff.mpr hx, Finset.singleton_nonempty x,
            by simp, hrp⟩
        by_cases hce : cs.isEmpty
        · rw [if_pos hce] at h
          injection h with h1
          subst h1
          refine ⟨hf1, by rw [hcd1], cs, hcsub, fun _ => hcd1, ?_, extra, hrl1, hextra⟩
          intro hcne
          exact absurd (List.isEmpty_iff.mp hce) hcne
        · rw [if_neg hce] at h
          have hlv1 : pyFind st1.conseq_dict freq = some levels := by
            rw [hcd1]
            exact hlv
          rw [hlv1] at h
          simp only [require, bind, Except.bind] at h
          injection h with h1
          subst h1
          refine ⟨?_, ?_, cs, hcsub, ?_, ?_, extra, hrl1, hextra⟩
          · refine frame2_trans hf1 ⟨rfl, rfl, rfl, rfl, rfl, rfl, rfl⟩
          · show keysOf (pyModifyLast st1.conseq_dict freq _) = keysOf st.conseq_dict
            rw [keysOf_pyModifyLast, hcd1]
          · intro hcnil
            exact absurd (by rw [hcnil]; rfl : cs.isEmpty = true) hce
          · intro _
            show pyFind (pyModifyLast st1.conseq_dict freq _) freq = _
            rw [pyFind_pyModifyLast_self, hlv1]
            rfl
  · rw [if_neg hk] at h
    rw [hlv] at h
    simp only [require, bind, Except.bind] at h
    cases hcp : checkPairs id st freq k (pairsLt (levels.getD (k - 1) [])) with
    | error e =>
        rw [hcp] at h
        simp at h
    | ok q =>
        obtain ⟨st1, cs⟩ := q
        rw [hcp] at h
        simp only [bind, Except.bind] at h
        obtain ⟨hf1, hcd1, hcsp, extra, hrl1, hpat⟩ := checkPairs_ok_inv _ st st1 cs hcp
        have hprev : ∀ c ∈ levels.getD (k - 1) [], c ⊆ freq ∧ c.card = k := by
          intro c hc
          by_cases hkl : k - 1 < levels.length
          · obtain ⟨-, hmem⟩ := hLOK (k - 1) hkl
            obtain ⟨h1, h2⟩ := hmem c hc
            refine ⟨h1, ?_⟩
            rw [h2]
            omega
          · rw [getD_of_le _ _ (by omega)] at hc
            exact absurd hc (List.not_mem_nil c)
        have hpairsub : ∀ p ∈ pairsLt (levels.getD (k - 1) []), p.1 ∪ p.2 ⊆ freq := by
          intro p hp
          obtain ⟨i, j, hi, hj, hij, rfl⟩ := mem_pairsLt.mp hp
          exact Finset.union_subset
            (hprev _ (List.get_mem _ _ _)).1 (hprev _ (List.get_mem _ _ _)).1
        have hcsub : ∀ c ∈ cs, c ⊆ freq ∧ c.card = k + 1 := by
          intro c hc
          obtain ⟨p, hp, rfl, hck⟩ := hcsp c hc
          exact ⟨hpairsub p hp, hck⟩
        have hextra : ∀ r ∈ extra, ∃ conseq : Itemset, conseq ⊆ freq ∧ conseq.Nonempty
            ∧ conseq.card = k + 1 ∧ RulePat st freq conseq r := by
          intro r hr
          obtain ⟨c, ⟨p, hp, rfl⟩, hck, hrp⟩ := hpat r hr
          exact ⟨p.1 ∪ p.2, hpairsub p hp, Finset.card_pos.mp (by omega), hck, hrp⟩
        by_cases hce : cs.isEmpty
        · rw [if_pos hce] at h
          injection h with h1
          subst h1
          refine ⟨hf1, by rw [hcd1], cs, hcsub, fun _ => hcd1, ?_, extra, hrl1, hextra⟩
          intro hcne
          exact absurd (List.isEmpty_iff.mp hce) hcne
        · rw [if_neg hce] at h
          have hlv1 : pyFind st1.conseq_dict freq = some levels := by
            rw [hcd1]
            exact hlv
          rw [hlv1] at h
          simp only [require, bind, Except.bind] at h
          injection h with h1
          subst h1
          refine ⟨?_, ?_, cs, hcsub, ?_, ?_, extra, hrl1, hextra⟩
          · refine frame2_trans hf1 ⟨rfl, rfl, rfl, rfl, rfl, rfl, rfl⟩
          · show keysOf (pyModifyLast st1.conseq_dict freq _) = keysOf st.conseq_dict
            rw [keysOf_pyModifyLast, hcd1]
          · intro hcnil
            exact absurd (by rw [hcnil]; rfl : cs.isEmpty = true) hce
          · intro _
            show pyFind (pyModifyLast st1.conseq_dict freq _) freq = _
            rw [pyFind_pyModifyLast_self, hlv1]
            rfl

theorem gen_conseqs_exists {st : Apriori} {freq : Itemset} {k : ℕ}
    {levels : List (List Itemset)}
    (hlv : pyFind st.conseq_dict freq = some levels)
    (hLOK : LevelsOK freq levels)
    (hchk : ∀ conseq : Itemset, conseq ⊆ freq → conseq.Nonempty → conseq.card = k + 1 →
      CheckOK st freq conseq) :
    ∃ st2, gen_conseqs id st freq k = .ok st2 := by
  simp only [gen_conseqs]
  by_cases hk : k = 0
  · rw [if_pos hk]
    have hctx : ∀ x ∈ freq.sort (· ≤ ·), CheckOK st freq ({x} : Itemset) := by
      intro x hx
      rw [Finset.mem_sort] at hx
      refine hchk {x} (Finset.singleton_subset_iff.mpr hx) (Finset.singleton_nonempty x) ?_
      rw [hk]
      simp
    obtain ⟨st1, cs, hci⟩ := checkItems_exists (freq.sort (· ≤ ·)) st hctx
    obtain ⟨hf1, hcd1, -, -⟩ := checkItems_ok_inv _ st st1 cs hci
    rw [hci]
    simp only [bind, Except.bind]
    by_cases hce : cs.isEmpty
    · rw [if_pos hce]
      exact ⟨st1, rfl⟩
    · rw [if_neg hce]
      have hlv1 : pyFind st1.conseq_dict freq = some levels := by
        rw [hcd1]
        exact hlv
      rw [hlv1]
      simp only [require, bind, Except.bind]
      exact ⟨_, rfl⟩
  · rw [if_neg hk]
    rw [hlv]
    simp only [require, bind, Except.bind]
    have hprev : ∀ c ∈ levels.getD (k - 1) [], c ⊆ freq ∧ c.card = k := by
      intro c hc
      by_cases hkl : k - 1 < levels.length
      · obtain ⟨-, hmem⟩ := hLOK (k - 1) hkl
        obtain ⟨h1, h2⟩ := hmem c hc
        refine ⟨h1, ?_⟩
        rw [h2]
        omega
      · rw [getD_of_le _ _ (by omega)] at hc
        exact absurd hc (List.not_mem_nil c)
    have hctx : ∀ p ∈ pairsLt (levels.getD (k - 1) []), (p.1 ∪ p.2).card = k + 1 →
        CheckOK st freq (p.1 ∪ p.2) := by
      intro p hp hcard
      obtain ⟨i, j, hi, hj, hij, rfl⟩ := mem_pairsLt.mp hp
      refine hchk _ (Finset.union_subset
        (hprev _ (List.get_mem _ _ _)).1 (hprev _ (List.get_mem _ _ _)).1)
        (Finset.card_pos.mp (by omega)) hcard
    obtain ⟨st1, cs, hcp⟩ := checkPairs_exists (pairsLt (levels.getD (k - 1) [])) st hctx
    obtain ⟨hf1, hcd1, -, -⟩ := checkPairs_ok_inv _ st st1 cs hcp
    rw [hcp]
    simp only [bind, Except.bind]
    by_cases hce : cs.isEmpty
    · rw [if_pos hce]
      exact ⟨st1, rfl⟩
    · rw [if_neg hce]
      have hlv1 : pyFind st1.conseq_dict freq = some levels := by
        rw [hcd1]
        exact hlv
      rw [hlv1]
      simp only [require, bind, Except.bind]
      exact ⟨_, rfl⟩

theorem ctx_checkOK {st : Apriori} (hctx : P2Ctx st) {freq conseq : Itemset}
    (hfreq : freq ∈ st.freq_list.flatten) (_hsub : conseq ⊆ freq)
    (hlt : conseq.card < freq.card) : CheckOK st freq conseq := by
  obtain ⟨hms, hpost⟩ := hctx
  obtain ⟨l, hl, hfl⟩ := mem_flatten_freq.mp hfreq
  have hF := post_supp_find hpost hl hfl
  have hante : (freq \ conseq).Nonempty := by
    rw [Finset.sdiff_nonempty]
    intro hle
    exact absurd (Finset.card_le_card hle) (by omega)
  have hsubA : freq \ conseq ⊆ freq := Finset.sdiff_subset
  have hAfreq : freq \ conseq ∈ freqAt st ((freq \ conseq).card - 1) := by
    refine post_closure hpost ((freq \ conseq).card - 1) (freq \ conseq) freq l hl hfl hsubA ?_
    have := Finset.card_pos.mpr hante
    omega
  have hmlen : (freq \ conseq).card - 1 < st.freq_list.length := by
    by_contra hge
    rw [not_lt] at hge
    unfold freqAt at hAfreq
    rw [getD_of_le _ _ hge] at hAfreq
    exact absurd hAfreq (List.not_mem_nil _)
  have hA := post_supp_find hpost hmlen hAfreq
  have hApos : (0 : ℚ) < suppQ st (freq \ conseq) :=
    lt_of_lt_of_le hms (by simpa using post_freq_supp hpost hmlen hAfreq)
  refine ⟨id (suppQ st freq), id (suppQ st (freq \ conseq)), hF, hA, ?_⟩
  simpa using ne_of_gt hApos

theorem conseqLoop_sound {freq : Itemset} {i : ℕ} :
    ∀ (d k : ℕ) (st st2 : Apriori) (levels : List (List Itemset)),
      i - k ≤ d →
      levels.length = k →
      pyFind st.conseq_dict freq = some levels →
      LevelsOK freq levels →
      conseqLoop id freq i k st = .ok st2 →
      Frame2 st st2
      ∧ keysOf st2.conseq_dict = keysOf st.conseq_dict
      ∧ ∃ extra, st2.rule_list = st.rule_list ++ extra
          ∧ ∀ r ∈ extra, ∃ conseq : Itemset, conseq ⊆ freq ∧ conseq.Nonempty
              ∧ conseq.card < i + 1 ∧ RulePat st freq conseq r := by
  intro d
  induction d with
  | zero =>
      intro k st st2 levels hd hlen hlv hLOK h
      rw [conseqLoop] at h
      rw [dif_neg (by omega)] at h
      injection h with h1
      subst h1
      exact ⟨frame2_refl _, rfl, [], by simp, by simp⟩
  | succ d ih =>
      intro k st st2 levels hd hlen hlv hLOK h
      rw [conseqLoop] at h
      by_cases hki : k < i
      · rw [dif_pos hki] at h
        cases hgc : gen_conseqs id st freq k with
        | error e =>
            rw [hgc] at h
            simp [bind, Except.bind] at h
        | ok st1 =>
            rw [hgc] at h
            simp only [bind, Except.bind] at h
            obtain ⟨hf1, hkeys1, conseqs, hcsub, hnil, hcons, extra1, hrl1, hpat1⟩ :=
              gen_conseqs_sound hlv hLOK hgc
            by_cases hce : conseqs = []
            · have hlv1 : pyFind st1.conseq_dict freq = some levels := by
                rw [hnil hce]
                exact hlv
              rw [hlv1] at h
              simp only [require, bind, Except.bind] at h
              rw [if_pos (by omega)] at h
              injection h with h1
              subst h1
              refine ⟨hf1, hkeys1, extra1, hrl1, ?_⟩
              intro r hr
              obtain ⟨conseq, h1, h2, h3, h4⟩ := hpat1 r hr
              exact ⟨conseq, h1, h2, by omega, h4⟩
            · have hlv1 : pyFind st1.conseq_dict freq = some (levels ++ [conseqs]) :=
                hcons hce
              rw [hlv1] at h
              simp only [require, bind, Except.bind] at h
              have hnlt : ¬ (levels ++ [conseqs]).length < k + 1 := by
                rw [List.length_append, List.length_singleton, hlen]
                omega
              rw [if_neg hnlt] at h
              have hLOK2 : LevelsOK freq (levels ++ [conseqs]) := by
                intro p hp
                rw [List.length_append, List.length_singleton] at hp
                have hp2 : p < k + 1 := by omega
                rcases Nat.lt_or_eq_of_le (Nat.lt_succ_iff.mp hp2) with hplt | hpe
                · rw [getD_append_lt _ _ _ (by omega)]
                  exact hLOK p (by omega)
                · have hpk : p = levels.length := by omega
                  subst hpk
                  rw [getD_append_len, hlen]
                  exact ⟨hce, hcsub⟩
              obtain ⟨hf2, hkeys2, extra2, hrl2, hpat2⟩ :=
                ih (k + 1) st1 st2 (levels ++ [conseqs]) (by omega)
                  (by rw [List.length_append, hlen]; rfl) hlv1 hLOK2 h
              refine ⟨frame2_trans hf1 hf2, hkeys2.trans hkeys1,
                extra1 ++ extra2, by rw [hrl2, hrl1, List.append_assoc], ?_⟩
              intro r hr
              rw [List.mem_append] at hr
              rcases hr with hr | hr
              · obtain ⟨conseq, h1, h2, h3, h4⟩ := hpat1 r hr
                exact ⟨conseq, h1, h2, by omega, h4⟩
              · obtain ⟨conseq, h1, h2, h3, h4⟩ := hpat2 r hr
                exact ⟨conseq, h1, h2, h3, rulePat_frame (frame2_symm hf1) h4⟩
      · rw [dif_neg hki] at h
        injection h with h1
        subst h1
        exact ⟨frame2_refl _, rfl, [], by simp, by simp⟩

theorem conseqLoop_exists {freq : Itemset} {i : ℕ} :
    ∀ (d k : ℕ) (st : Apriori) (levels : List (List Itemset)),
      i - k ≤ d →
      levels.length = k →
      pyFind st.conseq_dict freq = some levels →
      LevelsOK freq levels →
      P2Ctx st →
      freq ∈ st.freq_list.flatten →
      freq.card = i + 1 →
      ∃ st2, conseqLoop id freq i k st = .ok st2 := by
  intro d
  induction d with
  | zero =>
      intro k st levels hd hlen hlv hLOK hctx hfreq hfc
      rw [conseqLoop]
      rw [dif_neg (by omega)]
      exact ⟨st, rfl⟩
  | succ d ih =>
      intro k st levels hd hlen hlv hLOK hctx hfreq hfc
      rw [conseqLoop]
      by_cases hki : k < i
      · rw [dif_pos hki]
        obtain ⟨st1, hgc⟩ := @gen_conseqs_exists st freq k levels hlv hLOK
          (fun conseq hsub hne hcard => ctx_checkOK hctx hfreq hsub
            (by rw [hcard, hfc]; omega))
        rw [hgc]
        simp only [bind, Except.bind]
        obtain ⟨hf1, hkeys1, conseqs, hcsub, hnil, hcons, extra1, hrl1, hpat1⟩ :=
          gen_conseqs_sound hlv hLOK hgc
        by_cases hce : conseqs = []
        · have hlv1 : pyFind st1.conseq_dict freq = some levels := by
            rw [hnil hce]
            exact hlv
          rw [hlv1]
          simp only [require, bind, Except.bind]
          have hflt : levels.length < k + 1 := by omega
          rw [if_pos hflt]
          exact ⟨st1, rfl⟩
        · have hlv1 : pyFind st1.conseq_dict freq = some (levels ++ [conseqs]) :=
            hcons hce
          rw [hlv1]
          simp only [require, bind, Except.bind]
          have hnlt : ¬ (levels ++ [conseqs]).length < k + 1 := by
            rw [List.length_append, List.length_singleton, hlen]
            omega
          rw [if_neg hnlt]
          have hLOK2 : LevelsOK freq (levels ++ [conseqs]) := by
            intro p hp
            rw [List.length_append, List.length_singleton] at hp
            have hp2 : p < k + 1 := by omega
            rcases Nat.lt_or_eq_of_le (Nat.lt_succ_iff.mp hp2) with hplt | hpe
            · rw [getD_append_lt _ _ _ (by omega)]
              exact hLOK p (by omega)
            · have hpk : p = levels.length := by omega
              subst hpk
              rw [getD_append_len, hlen]
              exact ⟨hce, hcsub⟩
          refine ih (k + 1) st1 (levels ++ [conseqs]) (by omega)
            (by rw [List.length_append, hlen]; rfl) hlv1 hLOK2
            (p2ctx_frame hf1 hctx) ?_ hfc
          rw [hf1.2.2.2.2.2.1]
          exact hfreq
      · rw [dif_neg hki]
        exact ⟨st, rfl⟩

theorem processFreqs_sound {i : ℕ} :
    ∀ (freqs : List Itemset) (st st2 : Apriori),
      (∀ f ∈ freqs, f ∈ st.freq_list.flatten ∧ f.card = i + 1) →
      processFreqs id i freqs st = .ok st2 →
      Frame2 st st2
      ∧ keysOf st2.conseq_dict = keysOf st.conseq_dict ++ freqs
      ∧ ∃ extra, st2.rule_list = st.rule_list ++ extra ∧ ∀ r ∈ extra, RuleSound st r := by
  intro freqs
  induction freqs with
  | nil =>
      intro st st2 hfr h
      simp only [processFreqs] at h
      injection h with h1
      subst h1
      exact ⟨frame2_refl _, by simp, [], by simp, by simp⟩
  | cons freq rest ih =>
      intro st st2 hfr h
      simp only [processFreqs] at h
      cases hcl : conseqLoop id freq i 0
          { st with conseq_dict := st.conseq_dict ++ [(freq, [])] } with
      | error e =>
          rw [hcl] at h
          simp [bind, Except.bind] at h
      | ok st1 =>
          rw [hcl] at h
          simp only [bind, Except.bind] at h
          have hfst : Frame2 st { st with conseq_dict := st.conseq_dict ++ [(freq, [])] } :=
            ⟨rfl, rfl, rfl, rfl, rfl, rfl, rfl⟩
          have hlv : pyFind ({ st with conseq_dict := st.conseq_dict ++ [(freq, [])] } :
              Apriori).conseq_dict freq = some [] := by
            show pyFind (st.conseq_dict ++ [(freq, [])]) freq = some []
            rw [pyFind_append_single, if_pos rfl]
          obtain ⟨hf1, hkeys1, extra1, hrl1, hpat1⟩ :=
            conseqLoop_sound i 0 _ st1 [] (by omega) rfl hlv
              (fun p hp => absurd hp (Nat.not_lt_zero p)) hcl
          have hfr2 : ∀ f ∈ rest, f ∈ st1.freq_list.flatten ∧ f.card = i + 1 := by
            intro f hf
            have hmem := hfr f (List.mem_cons_of_mem freq hf)
            rw [(frame2_trans hfst hf1).2.2.2.2.2.1]
            exact hmem
          obtain ⟨hf2, hkeys2, extra2, hrl2, hsnd2⟩ := ih st1 st2 hfr2 h
          refine ⟨frame2_trans hfst (frame2_trans hf1 hf2), ?_, ?_⟩
          · rw [hkeys2, hkeys1]
            show keysOf (st.conseq_dict ++ [(freq, [])]) ++ rest = _
            rw [keysOf_append]
            simp [keysOf]
          · refine ⟨extra1 ++ extra2, ?_, ?_⟩
            · rw [hrl2, hrl1]
              show st.rule_list ++ extra1 ++ extra2 = _
              rw [List.append_assoc]
            · intro r hr
              rw [List.mem_append] at hr
              rcases hr with hr | hr
              · obtain ⟨conseq, hc1, hc2, hc3, hc4⟩ := hpat1 r hr
                have hfq := hfr freq (by simp)
                have hsound : RuleSound
                    { st with conseq_dict := st.conseq_dict ++ [(freq, [])] } r := by
                  refine ruleSound_of_pat ?_ hc1 hc2 ?_ hc4
                  · show freq ∈ st.freq_list.flatten
                    exact hfq.1
                  · rw [hfq.2]
                    exact hc3
                exact ruleSound_frame (frame2_symm hfst) hsound
              · have hsound := hsnd2 r hr
                exact ruleSound_frame (frame2_symm (frame2_trans hfst hf1)) hsound

theorem processFreqs_exists {i : ℕ} :
    ∀ (freqs : List Itemset) (st : Apriori),
      P2Ctx st →
      (∀ f ∈ freqs, f ∈ st.freq_list.flatten ∧ f.card = i + 1) →
      ∃ st2, processFreqs id i freqs st = .ok st2 := by
  intro freqs
  induction freqs with
  | nil =>
      intro st _ _
      exact ⟨st, rfl⟩
  | cons freq rest ih =>
      intro st hctx hfr
      have hfst : Frame2 st { st with conseq_dict := st.conseq_dict ++ [(freq, [])] } :=
        ⟨rfl, rfl, rfl, rfl, rfl, rfl, rfl⟩
      have hlv : pyFind ({ st with conseq_dict := st.conseq_dict ++ [(freq, [])] } :
          Apriori).conseq_dict freq = some [] := by
        show pyFind (st.conseq_dict ++ [(freq, [])]) freq = some []
        rw [pyFind_append_single, if_pos rfl]
      have hfq := hfr freq (by simp)
      obtain ⟨st1, hcl⟩ := conseqLoop_exists i 0 _ [] (by omega) rfl hlv
        (fun p hp => absurd hp (Nat.not_lt_zero p)) (p2ctx_frame hfst hctx)
        (by show freq ∈ st.freq_list.flatten; exact hfq.1) hfq.2
      obtain ⟨hf1, -, -⟩ := conseqLoop_sound i 0 _ st1 [] (by omega) rfl hlv
        (fun p hp => absurd hp (Nat.not_lt_zero p)) hcl
      have hfr2 : ∀ f ∈ rest, f ∈ st1.freq_list.flatten ∧ f.card = i + 1 := by
        intro f hf
        have hmem := hfr f (List.mem_cons_of_mem freq hf)
        rw [(frame2_trans hfst hf1).2.2.2.2.2.1]
        exact hmem
      obtain ⟨st2, hpf⟩ := ih st1 (p2ctx_frame (frame2_trans hfst hf1) hctx) hfr2
      refine ⟨st2, ?_⟩
      simp only [processFreqs, hcl, bind, Except.bind]
      exact hpf

theorem processLevels_sound :
    ∀ (Ls : List (List Itemset)) (i : ℕ) (st st2 : Apriori),
      (∀ p, p < Ls.length → ∀ f ∈ Ls.getD p [],
        f ∈ st.freq_list.flatten ∧ f.card = i + p + 1) →
      processLevels id i Ls st = .ok st2 →
      Frame2 st st2
      ∧ keysOf st2.conseq_dict = keysOf st.conseq_dict ++ keysFrom i Ls
      ∧ ∃ extra, st2.rule_list = st.rule_list ++ extra ∧ ∀ r ∈ extra, RuleSound st r := by
  intro Ls
  induction Ls with
  | nil =>
      intro i st st2 _ h
      simp only [processLevels] at h
      injection h with h1
      subst h1
      exact ⟨frame2_refl _, by simp [keysFrom], [], by simp, by simp⟩
  | cons freqs rest ih =>
      intro i st st2 hstr h
      simp only [processLevels] at h
      by_cases hi : i = 0
      · subst hi
        rw [if_pos rfl] at h
        simp only [bind, Except.bind] at h
        have hstr2 : ∀ p, p < rest.length → ∀ f ∈ rest.getD p [],
            f ∈ st.freq_list.flatten ∧ f.card = 1 + p + 1 := by
          intro p hp f hf
          have hmem := hstr (p + 1) (by simpa using Nat.succ_lt_succ hp) f (by simpa using hf)
          refine ⟨hmem.1, ?_⟩
          rw [hmem.2]
          omega
        obtain ⟨hf2, hkeys2, extra2, hrl2, hsnd2⟩ := ih 1 st st2 hstr2 h
        refine ⟨hf2, ?_, extra2, hrl2, hsnd2⟩
        rw [hkeys2]
        simp [keysFrom]
      · rw [if_neg hi] at h
        cases hpf : processFreqs id i freqs st with
        | error e =>
            rw [hpf] at h
            simp [bind, Except.bind] at h
        | ok st1 =>
            rw [hpf] at h
            simp only [bind, Except.bind] at h
            obtain ⟨hf1, hkeys1, extra1, hrl1, hsnd1⟩ := processFreqs_sound freqs st st1
              (fun f hf => by
                have := hstr 0 (by simp) f (by simpa using hf)
                exact ⟨this.1, by rw [this.2]⟩) hpf
            have hstr2 : ∀ p, p < rest.length → ∀ f ∈ rest.getD p [],
                f ∈ st1.freq_list.flatten ∧ f.card = (i + 1) + p + 1 := by
              intro p hp f hf
              have hmem := hstr (p + 1) (by simpa using Nat.succ_lt_succ hp) f (by simpa using hf)
              refine ⟨?_, ?_⟩
              · rw [hf1.2.2.2.2.2.1]
                exact hmem.1
              · rw [hmem.2]
                omega
            obtain ⟨hf2, hkeys2, extra2, hrl2, hsnd2⟩ := ih (i + 1) st1 st2 hstr2 h
            refine ⟨frame2_trans hf1 hf2, ?_, extra1 ++ extra2, ?_, ?_⟩
            · rw [hkeys2, hkeys1, List.append_assoc]
              show _ = keysOf st.conseq_dict ++ ((if i = 0 then [] else freqs) ++ keysFrom (i + 1) rest)
              rw [if_neg hi]
            · rw [hrl2, hrl1, List.append_assoc]
            · intro r hr
              rw [List.mem_append] at hr
              rcases hr with hr | hr
              · exact hsnd1 r hr
              · exact ruleSound_frame (frame2_symm hf1) (hsnd2 r hr)

theorem processLevels_exists :
    ∀ (Ls : List (List Itemset)) (i : ℕ) (st : Apriori),
      P2Ctx st →
      (∀ p, p < Ls.length → ∀ f ∈ Ls.getD p [],
        f ∈ st.freq_list.flatten ∧ f.card = i + p + 1) →
      ∃ st2, processLevels id i Ls st = .ok st2 := by
  intro Ls
  induction Ls with
  | nil =>
      intro i st _ _
      exact ⟨st, rfl⟩
  | cons freqs rest ih =>
      intro i st hctx hstr
      simp only [processLevels]
      by_cases hi : i = 0
      · subst hi
        rw [if_pos rfl]
        simp only [bind, Except.bind]
        refine ih 1 st hctx ?_
        intro p hp f hf
        have := hstr (p + 1) (by simpa using Nat.succ_lt_succ hp) f (by simpa using hf)
        refine ⟨this.1, ?_⟩
        rw [this.2]
        omega
      · rw [if_neg hi]
        have hfr : ∀ f ∈ freqs, f ∈ st.freq_list.flatten ∧ f.card = i + 1 := by
          intro f hf
          have := hstr 0 (by simp) f (by simpa using hf)
          exact ⟨this.1, by rw [this.2]⟩
        obtain ⟨st1, hpf⟩ := processFreqs_exists freqs st hctx hfr
        obtain ⟨hf1, -, -⟩ := processFreqs_sound freqs st st1 hfr hpf
        rw [hpf]
        simp only [bind, Except.bind]
        refine ih (i + 1) st1 (p2ctx_frame hf1 hctx) ?_
        intro p hp f hf
        have := hstr (p + 1) (by simpa using Nat.succ_lt_succ hp) f (by simpa using hf)
        refine ⟨?_, ?_⟩
        · rw [hf1.2.2.2.2.2.1]
          exact this.1
        · rw [this.2]
          omega

/-- The frequent-itemset phase leaves the rule containers and the
constructor data untouched. -/
theorem freqPhase_frame {rnd : ℚ → ℚ} :
    ∀ (fuel k : ℕ) (st st2 : Apriori), freqPhase rnd fuel k st = some (.ok st2) →
      st2.rule_list = st.rule_list ∧ st2.conseq_dict = st.conseq_dict
      ∧ st2.baskets = st.baskets ∧ st2.n_baskets = st.n_baskets
      ∧ st2.min_supp = st.min_supp ∧ st2.min_conf = st.min_conf := by
  intro fuel
  induction fuel with
  | zero =>
      intro k st st2 h
      exact absurd h (by simp [freqPhase])
  | succ fuel ih =>
      intro k st st2 h
      simp only [freqPhase] at h
      by_cases hc : candsOf st k = []
      · have hgc : gen_cands st k = st := by
          unfold gen_cands
          rw [if_pos (by rwa [List.isEmpty_iff])]
        rw [hgc] at h
        by_cases hlt : st.cand_list.length < k + 1
        · rw [if_pos hlt] at h
          injection h with h1
          injection h1 with h2
          subst h2
          exact ⟨rfl, rfl, rfl, rfl, rfl, rfl⟩
        · rw [if_neg hlt] at h
          cases hgf : gen_freqs rnd st (k + 1) with
          | error e =>
              rw [hgf] at h
              exact absurd h (by simp)
          | ok st3 =>
              rw [hgf] at h
              have hred : (if st3.freq_list.length < k + 1 then some (Except.ok st3)
                  else freqPhase rnd fuel (k + 1) st3) = some (Except.ok st2) := h
              have hst3 : st3.rule_list = st.rule_list ∧ st3.conseq_dict = st.conseq_dict
                  ∧ st3.baskets = st.baskets ∧ st3.n_baskets = st.n_baskets
                  ∧ st3.min_supp = st.min_supp ∧ st3.min_conf = st.min_conf := by
                unfold gen_freqs at hgf
                by_cases hz : st.n_baskets = 0 ∧ ¬ (st.cand_list.getD (k + 1 - 1) []).isEmpty
                · rw [if_pos hz] at hgf
                  exact absurd hgf (by simp)
                · rw [if_neg hz] at hgf
                  injection hgf with h2
                  subst h2
                  exact ⟨rfl, rfl, rfl, rfl, rfl, rfl⟩
              by_cases hlt2 : st3.freq_list.length < k + 1
              · rw [if_pos hlt2] at hred
                injection hred with h1
                injection h1 with h2
                subst h2
                exact hst3
              · rw [if_neg hlt2] at hred
                obtain ⟨a1, a2, a3, a4, a5, a6⟩ := ih (k + 1) st3 st2 hred
                exact ⟨a1.trans hst3.1, a2.trans hst3.2.1, a3.trans hst3.2.2.1,
                  a4.trans hst3.2.2.2.1, a5.trans hst3.2.2.2.2.1, a6.trans hst3.2.2.2.2.2⟩
      · have hgc : gen_cands st k = { st with cand_list := st.cand_list ++ [candsOf st k] } := by
          unfold gen_cands
          rw [if_neg (by rw [List.isEmpty_iff]; exact hc)]
        rw [hgc] at h
        by_cases hlt : ({ st with cand_list := st.cand_list ++ [candsOf st k] } :
            Apriori).cand_list.length < k + 1
        · rw [if_pos hlt] at h
          injection h with h1
          injection h1 with h2
          subst h2
          exact ⟨rfl, rfl, rfl, rfl, rfl, rfl⟩
        · rw [if_neg hlt] at h
          cases hgf : gen_freqs rnd { st with cand_list := st.cand_list ++ [candsOf st k] }
              (k + 1) with
          | error e =>
              rw [hgf] at h
              exact absurd h (by simp)
          | ok st3 =>
              rw [hgf] at h
              have hred : (if st3.freq_list.length < k + 1 then some (Except.ok st3)
                  else freqPhase rnd fuel (k + 1) st3) = some (Except.ok st2) := h
              have hst3 : st3.rule_list = st.rule_list ∧ st3.conseq_dict = st.conseq_dict
                  ∧ st3.baskets = st.baskets ∧ st3.n_baskets = st.n_baskets
                  ∧ st3.min_supp = st.min_supp ∧ st3.min_conf = st.min_conf := by
                unfold gen_freqs at hgf
                by_cases hz : ({ st with cand_list := st.cand_list ++ [candsOf st k] } :
                    Apriori).n_baskets = 0
                    ∧ ¬ (({ st with cand_list := st.cand_list ++ [candsOf st k] } :
                    Apriori).cand_list.getD (k + 1 - 1) []).isEmpty
                · rw [if_pos hz] at hgf
                  exact absurd hgf (by simp)
                · rw [if_neg hz] at hgf
                  injection hgf with h2
                  subst h2
                  exact ⟨rfl, rfl, rfl, rfl, rfl, rfl⟩
              by_cases hlt2 : st3.freq_list.length < k + 1
              · rw [if_pos hlt2] at hred
                injection hred with h1
                injection h1 with h2
                subst h2
                exact hst3
              · rw [if_neg hlt2] at hred
                obtain ⟨a1, a2, a3, a4, a5, a6⟩ := ih (k + 1) st3 st2 hred
                exact ⟨a1.trans hst3.1, a2.trans hst3.2.1, a3.trans hst3.2.2.1,
                  a4.trans hst3.2.2.2.1, a5.trans hst3.2.2.2.2.1, a6.trans hst3.2.2.2.2.2⟩

/-- The frequent-itemset phase cannot raise when baskets exist: the only
`ZeroDivisionError` site divides by the basket count. -/
theorem freqPhase_no_error {rnd : ℚ → ℚ} :
    ∀ (fuel k : ℕ) (st : Apriori) (e : String), st.n_baskets ≠ 0 →
      freqPhase rnd fuel k st ≠ some (.error e) := by
  intro fuel
  induction fuel with
  | zero =>
      intro k st e _
      simp [freqPhase]
  | succ fuel ih =>
      intro k st e hn
      simp only [freqPhase]
      have hn1 : (gen_cands st k).n_baskets = st.n_baskets := by
        unfold gen_cands
        by_cases hc : (candsOf st k).isEmpty <;> simp [hc]
      by_cases hlt : (gen_cands st k).cand_list.length < k + 1
      · rw [if_pos hlt]
        simp
      · rw [if_neg hlt]
        cases hgf : gen_freqs rnd (gen_cands st k) (k + 1) with
        | error e2 =>
            exfalso
            unfold gen_freqs at hgf
            by_cases hz : (gen_cands st k).n_baskets = 0
              ∧ ¬ ((gen_cands st k).cand_list.getD (k + 1 - 1) []).isEmpty
            · exact hn (by rw [← hn1]; exact hz.1)
            · rw [if_neg hz] at hgf
              exact absurd hgf (by simp)
        | ok st3 =>
            have hn3 : st3.n_baskets = st.n_baskets := by
              unfold gen_freqs at hgf
              by_cases hz : (gen_cands st k).n_baskets = 0
                ∧ ¬ ((gen_cands st k).cand_list.getD (k + 1 - 1) []).isEmpty
              · rw [if_pos hz] at hgf
                exact absurd hgf (by simp)
              · rw [if_neg hz] at hgf
                injection hgf with h2
                subst h2
                exact hn1
            show (if st3.freq_list.length < k + 1 then some (Except.ok st3)
              else freqPhase rnd fuel (k + 1) st3) ≠ some (Except.error e)
            by_cases hlt2 : st3.freq_list.length < k + 1
            · rw [if_pos hlt2]
              simp
            · rw [if_neg hlt2]
              exact ih (k + 1) st3 e (by rw [hn3]; exact hn)

theorem mem_keysFrom : ∀ (L : List (List Itemset)) (i : ℕ) (c : Itemset),
    c ∈ keysFrom i L ↔ ∃ p, p < L.length ∧ i + p ≠ 0 ∧ c ∈ L.getD p [] := by
  intro L
  induction L with
  | nil =>
      intro i c
      simp [keysFrom]
  | cons F rest ih =>
      intro i c
      simp only [keysFrom, List.mem_append]
      rw [ih (i + 1)]
      constructor
      · rintro (hc | ⟨p, hp, hne, hc⟩)
        · by_cases hi : i = 0
          · rw [if_pos hi] at hc
            exact absurd hc (List.not_mem_nil c)
          · rw [if_neg hi] at hc
            exact ⟨0, by simp, by omega, by simpa using hc⟩
        · refine ⟨p + 1, by simpa using Nat.succ_lt_succ hp, by omega, ?_⟩
          rw [List.getD_cons_succ]
          exact hc
      · rintro ⟨p, hp, hne, hc⟩
        cases p with
        | zero =>
            left
            have hi : i ≠ 0 := by omega
            rw [if_neg hi]
            rw [List.getD_cons_zero] at hc
            exact hc
        | succ p =>
            right
            rw [List.getD_cons_succ] at hc
            exact ⟨p, by simpa using Nat.lt_of_succ_lt_succ hp, by omega, hc⟩

theorem nodup_keysFrom : ∀ (L : List (List Itemset)) (i : ℕ),
    (∀ p, p < L.length → (L.getD p []).Nodup ∧ ∀ c ∈ L.getD p [], c.card = i + p + 1) →
    (keysFrom i L).Nodup := by
  intro L
  induction L with
  | nil =>
      intro i _
      simp [keysFrom]
  | cons F rest ih =>
      intro i hstr
      simp only [keysFrom]
      rw [List.nodup_append]
      refine ⟨?_, ?_, ?_⟩
      · by_cases hi : i = 0
        · rw [if_pos hi]
          exact List.nodup_nil
        · rw [if_neg hi]
          have := (hstr 0 (by simp)).1
          rwa [List.getD_cons_zero] at this
      · refine ih (i + 1) ?_
        intro p hp
        have := hstr (p + 1) (by simpa using Nat.succ_lt_succ hp)
        rw [List.getD_cons_succ] at this
        refine ⟨this.1, ?_⟩
        intro c hc
        rw [this.2 c hc]
        omega
      · intro c hcF hcK
        by_cases hi : i = 0
        · rw [if_pos hi] at hcF
          exact absurd hcF (List.not_mem_nil c)
        · rw [if_neg hi] at hcF
          obtain ⟨p, hp, -, hcp⟩ := (mem_keysFrom rest (i + 1) c).mp hcK
          have h1 := (hstr 0 (by simp)).2 c (by rwa [List.getD_cons_zero])
          have h2 := (hstr (p + 1) (by simpa using Nat.succ_lt_succ hp)).2 c
            (by rwa [List.getD_cons_succ])
          omega

theorem nodup_flatMap_range : ∀ (n : ℕ) (f : ℕ → List Itemset),
    (∀ l, l < n → (f l).Nodup) → (∀ l, l < n → ∀ c ∈ f l, c.card = l + 1) →
    ((List.range n).flatMap f).Nodup := by
  intro n
  induction n with
  | zero =>
      intro f _ _
      simp
  | succ n ih =>
      intro f hnd hcard
      rw [List.range_succ, List.flatMap_append, List.flatMap_singleton, List.nodup_append]
      refine ⟨ih f (fun l hl => hnd l (by omega)) (fun l hl => hcard l (by omega)),
        hnd n (by omega), ?_⟩
      intro c hc1 hc2
      obtain ⟨l, hl, hcl⟩ := List.mem_flatMap.mp hc1
      rw [List.mem_range] at hl
      have h1 := hcard l (by omega) c hcl
      have h2 := hcard n (by omega) c hc2
      omega

theorem post_freq_nodup {rnd : ℚ → ℚ} {st : Apriori} (h : Phase1Post rnd st) (l : ℕ)
    (hl : l < st.freq_list.length) : (freqAt st l).Nodup := by
  rw [h.freq_eq l hl]
  exact (h.cand_nodup l).filter _

theorem post_supp_keys_nodup {rnd : ℚ → ℚ} {st : Apriori} (h : Phase1Post rnd st) :
    (keysOf st.supp_dict).Nodup := by
  rw [h.supp_eq]
  have hk : keysOf ((List.range st.freq_list.length).flatMap
      (fun l => (freqAt st l).map (fun c => (c, rnd (suppQ st c)))))
      = (List.range st.freq_list.length).flatMap (fun l => freqAt st l) := by
    unfold keysOf
    rw [List.map_flatMap]
    apply List.flatMap_congr
    intro l _
    rw [List.map_map]
    have hid : (Prod.fst ∘ fun c : Itemset => (c, rnd (suppQ st c))) = fun c => c := rfl
    rw [hid]
    exact List.map_id _
  rw [hk]
  refine nodup_flatMap_range _ _ ?_ ?_
  · intro l hl
    exact post_freq_nodup h l hl
  · intro l hl c hc
    exact post_freq_card h hl hc

/-- Unpack a normal full run: the frequent phase produced a `Phase1Post`
state with empty rule containers, and the rule phase ran on it. -/
theorem apriori_run_inv {b : List Itemset} {ms mc : ℚ} {st2 : Apriori}
    (h : aprioriQ (mkApriori b ms mc) = some (.ok st2)) :
    ∃ st1 : Apriori, Phase1Post id st1
      ∧ st1.rule_list = [] ∧ st1.conseq_dict = []
      ∧ st1.baskets = b ∧ st1.n_baskets = b.length
      ∧ st1.min_supp = ms ∧ st1.min_conf = mc
      ∧ processLevels id 0 st1.freq_list st1 = .ok st2 := by
  unfold aprioriQ apriori at h
  cases hp : freqPhase id (fuelOf (mkApriori b ms mc)) 0 (mkApriori b ms mc) with
  | none =>
      rw [hp] at h
      exact absurd h (by simp)
  | some r =>
      rw [hp] at h
      cases r with
      | error e => exact absurd h (by simp)
      | ok st1 =>
          have h2 : some (processLevels id 0 st1.freq_list st1) = some (Except.ok st2) := h
          injection h2 with h1
          have hpost := freqPhase_post _ 0 _ st1 (phase1Inv_init id b ms mc) hp
          obtain ⟨e1, e2, e3, e4, e5, e6⟩ := freqPhase_frame _ 0 _ st1 hp
          exact ⟨st1, hpost, e1, e2, e3, e4, e5, e6, h1⟩

theorem post_strata {st : Apriori} (hpost : Phase1Post id st) :
    ∀ p, p < st.freq_list.length → ∀ f ∈ st.freq_list.getD p [],
      f ∈ st.freq_list.flatten ∧ f.card = 0 + p + 1 := by
  intro p hp f hf
  have hf2 : f ∈ freqAt st p := hf
  have hc := post_freq_card hpost hp hf2
  exact ⟨mem_flatten_freq.mpr ⟨p, hp, hf2⟩, by omega⟩

/-- C2: every rule in the collection after a normal run is sound: its
antecedent and consequent are disjoint, the consequent is a strict
non-empty subset of a recorded frequent itemset, the antecedent is the
non-empty difference, the confidence is the quotient of the supports
stored in `supp_dict`, and it meets `min_conf`. -/
theorem c2_rule_soundness (b : List Itemset) (ms mc : ℚ) (st2 : Apriori)
    (h : aprioriQ (mkApriori b ms mc) = some (.ok st2)) :
    ∀ r ∈ st2.rule_list, RuleSound st2 r := by
  obtain ⟨st1, hpost, hrl, hcd, hb, hn, hms, hmc, hpl⟩ := apriori_run_inv h
  obtain ⟨hf2, hkeys2, extra, hrl2, hsnd⟩ :=
    processLevels_sound st1.freq_list 0 st1 st2 (post_strata hpost) hpl
  intro r hr
  rw [hrl2, hrl, List.nil_append] at hr
  exact ruleSound_frame hf2 (hsnd r hr)

/-- Witness: in the concrete scenario the emitted rule `{2} → {1}` with
confidence 3/4 is sound with respect to the final state. -/
theorem c2_rule_soundness_witness : RuleSound scenarioState ({2}, {1}, (3/4 : ℚ)) := by
  refine c2_rule_soundness scenarioBaskets (3/5) (3/4) scenarioState ?_ _ ?_
  · with_unfolding_all rfl
  · with_unfolding_all decide

/-- C7: support is antimonotone on the recorded support map (`A ⊆ B`
implies `support(B) ≤ support(A)`), and no superset of a candidate that
failed the `min_supp` test appears in any frequent level. -/
theorem c7_support_antimonotone (b : List Itemset) (ms mc : ℚ) (st2 : Apriori)
    (h : aprioriQ (mkApriori b ms mc) = some (.ok st2)) :
    (∀ A B : Itemset, ∀ sA sB : ℚ, pyFind st2.supp_dict A = some sA →
      pyFind st2.supp_dict B = some sB → A ⊆ B → sB ≤ sA)
    ∧ (∀ l : ℕ, ∀ c ∈ candAt st2 l, suppQ st2 c < st2.min_supp →
        ∀ F ∈ st2.freq_list.flatten, ¬ c ⊆ F) := by
  obtain ⟨st1, hpost, hrl, hcd, hb, hn, hms, hmc, hpl⟩ := apriori_run_inv h
  obtain ⟨hf2, -, -⟩ :=
    processLevels_sound st1.freq_list 0 st1 st2 (post_strata hpost) hpl
  have hpost2 : Phase1Post id st2 := phase1Post_frame hf2 hpost
  constructor
  · intro A B sA sB hA hB hAB
    have h1 := post_supp_mem hpost2 (pyFind_mem hA)
    have h2 := post_supp_mem hpost2 (pyFind_mem hB)
    rw [h1.1, h2.1]
    simpa using suppQ_anti hAB
  · intro l c hc hlow F hF hsub
    obtain ⟨l2, hl2, hF2⟩ := mem_flatten_freq.mp hF
    have h1 : st2.min_supp ≤ suppQ st2 F := by
      simpa using post_freq_supp hpost2 hl2 hF2
    have h2 : suppQ st2 F ≤ suppQ st2 c := suppQ_anti hsub
    have := lt_of_le_of_lt (le_trans h1 h2) hlow
    exact lt_irrefl _ this

/-- Witness: in the concrete scenario, `{1} ⊆ {1,2}` and the recorded
supports `4/5` and `3/5` satisfy the antimonotone inequality. -/
theorem c7_support_antimonotone_witness : (3/5 : ℚ) ≤ 4/5 := by
  refine (c7_support_antimonotone scenarioBaskets (3/5) (3/4) scenarioState ?_).1
    {1} {1, 2} (4/5) (3/5) ?_ ?_ ?_
  · with_unfolding_all rfl
  · with_unfolding_all decide
  · with_unfolding_all decide
  · decide

/-- C8: during one run the support dictionary and the consequence
dictionary are append-only: in the recorded binding histories every key is
bound at most once, so no stored support and no consequence-level list
binding is ever overwritten. -/
theorem c8_append_only (b : List Itemset) (ms mc : ℚ) (st2 : Apriori)
    (h : aprioriQ (mkApriori b ms mc) = some (.ok st2)) :
    (keysOf st2.supp_dict).Nodup ∧ (keysOf st2.conseq_dict).Nodup := by
  obtain ⟨st1, hpost, hrl, hcd, hb, hn, hms, hmc, hpl⟩ := apriori_run_inv h
  obtain ⟨hf2, hkeys2, -⟩ :=
    processLevels_sound st1.freq_list 0 st1 st2 (post_strata hpost) hpl
  constructor
  · rw [hf2.2.2.2.2.2.2]
    exact post_supp_keys_nodup hpost
  · rw [hkeys2, hcd]
    show ([] : List Itemset) ++ keysFrom 0 st1.freq_list |>.Nodup
    rw [List.nil_append]
    refine nodup_keysFrom st1.freq_list 0 ?_
    intro p hp
    refine ⟨post_freq_nodup hpost p hp, ?_⟩
    intro c hc
    have := post_freq_card hpost hp (show c ∈ freqAt st1 p from hc)
    omega

/-- Witness: the key lists of both dictionaries of the concrete scenario's
final state are duplicate-free. -/
theorem c8_append_only_witness :
    (keysOf scenarioState.supp_dict).Nodup ∧ (keysOf scenarioState.conseq_dict).Nodup := by
  refine c8_append_only scenarioBaskets (3/5) (3/4) scenarioState ?_
  with_unfolding_all rfl

/-- C10: with a non-empty basket collection and a positive support
threshold, the whole run returns normally: every support lookup performed
by `check_rule` succeeds (the antecedent was recorded by the frequent
phase, by downward closure) and its divisor is positive, so the `KeyError`
and `ZeroDivisionError` branches are unreachable. -/
theorem c10_no_lookup_failure (b : List Itemset) (ms mc : ℚ)
    (hb : b ≠ []) (hms : 0 < ms) :
    ∃ st2 : Apriori, aprioriQ (mkApriori b ms mc) = some (.ok st2) := by
  unfold aprioriQ apriori
  cases hp : freqPhase id (fuelOf (mkApriori b ms mc)) 0 (mkApriori b ms mc) with
  | none =>
      exact absurd hp (freqPhase_not_none _ 0 _ (phase1Inv_init id b ms mc)
        (by unfold fuelOf; omega))
  | some r =>
      cases r with
      | error e =>
          refine absurd hp (freqPhase_no_error _ 0 _ e ?_)
          show b.length ≠ 0
          exact fun h0 => hb (List.length_eq_zero.mp h0)
      | ok st1 =>
          have hpost := freqPhase_post _ 0 _ st1 (phase1Inv_init id b ms mc) hp
          obtain ⟨e1, e2, e3, e4, e5, e6⟩ := freqPhase_frame _ 0 _ st1 hp
          have hctx : P2Ctx st1 := ⟨by rw [e5]; exact hms, hpost⟩
          obtain ⟨st2, hpl⟩ :=
            processLevels_exists st1.freq_list 0 st1 hctx (post_strata hpost)
          refine ⟨st2, ?_⟩
          show some (processLevels id 0 st1.freq_list st1) = some (Except.ok st2)
          rw [hpl]

/-- Witness: the run on `[{1, 2}]` with thresholds 1/2 returns normally. -/
theorem c10_no_lookup_failure_witness :
    ∃ st2 : Apriori, aprioriQ (mkApriori [{1, 2}] (1/2) (1/2)) = some (.ok st2) := by
  refine c10_no_lookup_failure [{1, 2}] (1/2) (1/2) ?_ ?_
  · decide
  · with_unfolding_all decide

/-- Witness: the run on `[{1, 2}]` with the default-style thresholds does
not exhaust its fuel. -/
theorem c6_termination_witness : apriori id (mkApriori [{1, 2}] (1/2) (1/2)) ≠ none :=
  c6_termination id [{1, 2}] (1/2) (1/2)
